import Mathlib

/-!
Shallow embedding of the graph-search core of the repository
(src/aoc_utils/src/search.rs): bfs, dfs, dijkstra and reconstruct_path,
together with proofs of the specified properties.

Modelling choices, mirroring the Rust source:
* Node type T is an arbitrary type with decidable equality (Rust: T: Eq + Hash + Copy).
* HashMap is modelled as an association list with key-update insert
  (HashMap::insert replaces the value of an existing key).
* The priority_queue crate's PriorityQueue is a keyed structure: push(item, prio)
  updates the priority when the item is already present, and pop removes an item
  of greatest priority (here std::cmp::Reverse of the distance, hence an item of
  least distance; ties are broken arbitrarily by the crate, the model removes
  the first entry of least distance).
* The Rust loops carry no termination proof, so the model runs on explicit fuel;
  running out of fuel is distinguished from the panicking indexed map accesses
  (dist[&cur] / dist[&u]).
* usize distances are Nat, i64 costs are Int.
-/

set_option linter.unusedSectionVars false

namespace AocSearch

variable {T : Type} [DecidableEq T]

/-- Lookup in an association list, first matching key wins
(models HashMap::get / the index operator). -/
def alookup : List (T × β) → T → Option β
  | [], _ => none
  | (k, v) :: rest, x => if x = k then some v else alookup rest x

/-- Insert into an association list, replacing the value at an existing key
(models HashMap::insert and PriorityQueue::push). -/
def ainsert : List (T × β) → T → β → List (T × β)
  | [], k, v => [(k, v)]
  | (k', v') :: rest, k, v =>
    if k = k' then (k, v) :: rest else (k', v') :: ainsert rest k v

/-- Pop an entry of least distance from the model priority queue; among equal
least distances the first is taken (the crate leaves the tie unspecified). -/
def popMin : List (T × Int) → Option ((T × Int) × List (T × Int))
  | [] => none
  | (u, d) :: rest =>
    match popMin rest with
    | none => some ((u, d), rest)
    | some ((u', d'), rest') =>
      if d ≤ d' then some ((u, d), rest) else some ((u', d'), (u, d) :: rest')

/-- Result of running one of the fuelled loops: fuel ran out, a panicking
indexed map access hit a missing key, or the loop finished with a value. -/
inductive Res (α : Type) where
  | timeout : Res α
  | keyPanic : Res α
  | ok : α → Res α
deriving DecidableEq

/-- Result of a single loop iteration: the loop guard failed (done), a
panicking map access hit a missing key, or the iteration produced a new state. -/
inductive StepRes (σ : Type) where
  | done : StepRes σ
  | panic : StepRes σ
  | next : σ → StepRes σ
deriving DecidableEq

/-- Unweighted path of a given edge count from s, following the neighbor
function (each step uses one listed neighbor edge). -/
inductive NPath (nbrs : T → List T) (s : T) : T → Nat → Prop where
  | refl : NPath nbrs s s 0
  | step {u v : T} {n : Nat} : NPath nbrs s u n → v ∈ nbrs u → NPath nbrs s v (n + 1)

/-- Weighted path of a given accumulated cost from s, following the neighbor
function (each step uses one listed (neighbor, cost) edge). -/
inductive WPath (nbrs : T → List (T × Int)) (s : T) : T → Int → Prop where
  | refl : WPath nbrs s s 0
  | step {u v : T} {w c : Int} : WPath nbrs s u c → (v, w) ∈ nbrs u → WPath nbrs s v (c + w)

/-- State of the bfs loop: the distance map and the FIFO frontier. -/
structure BfsState (T : Type) where
  dist : List (T × Nat)
  q : List T
deriving DecidableEq

/-- One neighbor of the bfs inner loop: a neighbor without a distance entry is
assigned d + 1 and enqueued at the back. -/
def bfsRelax (d : Nat) (st : BfsState T) (nb : T) : BfsState T :=
  if (alookup st.dist nb).isSome then st
  else ⟨ainsert st.dist nb (d + 1), st.q ++ [nb]⟩

/-- One iteration of the bfs while-let loop. -/
def bfsStep (nbrs : T → List T) (st : BfsState T) : StepRes (BfsState T) :=
  match st.q with
  | [] => .done
  | cur :: rest =>
    match alookup st.dist cur with
    | none => .panic
    | some d => .next ((nbrs cur).foldl (bfsRelax d) ⟨st.dist, rest⟩)

def bfsRun (nbrs : T → List T) : Nat → BfsState T → Res (List (T × Nat))
  | 0, _ => .timeout
  | fuel + 1, st =>
    match bfsStep nbrs st with
    | .done => .ok st.dist
    | .panic => .keyPanic
    | .next st' => bfsRun nbrs fuel st'

def bfsInit (start : T) : BfsState T := ⟨[(start, 0)], [start]⟩

/-- Breadth-first search: returns distance map from start. -/
def bfs (start : T) (nbrs : T → List T) (fuel : Nat) : Res (List (T × Nat)) :=
  bfsRun nbrs fuel (bfsInit start)

/-- State of the dfs loop: visited set, LIFO stack (head is the top) and the
visit order accumulated so far. -/
structure DfsState (T : Type) where
  visited : List T
  stack : List T
  order : List T
deriving DecidableEq

/-- The dfs inner loop: push (on top of s) every listed neighbor that is not
in the visited set vis. -/
def dfsPushes (vis : List T) (l : List T) (s : List T) : List T :=
  l.foldl (fun s nb => if nb ∈ vis then s else nb :: s) s

/-- One iteration of the dfs while-let loop. -/
def dfsStep (nbrs : T → List T) (st : DfsState T) : StepRes (DfsState T) :=
  match st.stack with
  | [] => .done
  | cur :: rest =>
    if cur ∈ st.visited then .next ⟨st.visited, rest, st.order⟩
    else .next ⟨cur :: st.visited, dfsPushes (cur :: st.visited) (nbrs cur) rest,
      st.order ++ [cur]⟩

def dfsRun (nbrs : T → List T) : Nat → DfsState T → Res (List T)
  | 0, _ => .timeout
  | fuel + 1, st =>
    match dfsStep nbrs st with
    | .done => .ok st.order
    | .panic => .keyPanic
    | .next st' => dfsRun nbrs fuel st'

def dfsInit (start : T) : DfsState T := ⟨[], [start], []⟩

/-- Depth-first search (non-recursive): returns the visit order. -/
def dfs (start : T) (nbrs : T → List T) (fuel : Nat) : Res (List T) :=
  dfsRun nbrs fuel (dfsInit start)

/-- State of the dijkstra loop: distance map, previous-node map and the keyed
priority queue (a node occurs at most once; push updates its priority). -/
structure DijState (T : Type) where
  dist : List (T × Int)
  prev : List (T × T)
  pq : List (T × Int)
deriving DecidableEq

/-- One neighbor (v, w) of the dijkstra inner loop: relax v through u at
candidate distance d + w when v has no entry or the candidate is strictly
smaller, updating dist, prev and the queue priority together. -/
def relax (u : T) (d : Int) (st : DijState T) (vw : T × Int) : DijState T :=
  match alookup st.dist vw.1 with
  | none =>
    ⟨ainsert st.dist vw.1 (d + vw.2), ainsert st.prev vw.1 u, ainsert st.pq vw.1 (d + vw.2)⟩
  | some old =>
    if d + vw.2 < old then
      ⟨ainsert st.dist vw.1 (d + vw.2), ainsert st.prev vw.1 u, ainsert st.pq vw.1 (d + vw.2)⟩
    else st

/-- One iteration of the dijkstra while-let loop: pop a least-distance entry;
an entry whose distance exceeds the recorded best is discarded (outdated),
otherwise every listed neighbor is relaxed. -/
def dijStep (nbrs : T → List (T × Int)) (st : DijState T) : StepRes (DijState T) :=
  match popMin st.pq with
  | none => .done
  | some ((u, d), rest) =>
    match alookup st.dist u with
    | none => .panic
    | some du =>
      if du < d then .next ⟨st.dist, st.prev, rest⟩
      else .next ((nbrs u).foldl (relax u d) ⟨st.dist, st.prev, rest⟩)

def dijRun (nbrs : T → List (T × Int)) :
    Nat → DijState T → Res (List (T × Int) × List (T × T))
  | 0, _ => .timeout
  | fuel + 1, st =>
    match dijStep nbrs st with
    | .done => .ok (st.dist, st.prev)
    | .panic => .keyPanic
    | .next st' => dijRun nbrs fuel st'

def dijInit (start : T) : DijState T := ⟨[(start, 0)], [], [(start, 0)]⟩

/-- Dijkstra: returns (distance map, previous-node map). -/
def dijkstra (start : T) (nbrs : T → List (T × Int)) (fuel : Nat) :
    Res (List (T × Int) × List (T × T)) :=
  dijRun nbrs fuel (dijInit start)

/-- The loop of reconstruct_path: follow predecessor entries, collecting nodes;
the accumulator is kept in source-to-target order (the Rust code pushes at the
back and reverses at the end, which is the same list). -/
def reconstructGo (prev : List (T × T)) : Nat → T → List T → Option (List T)
  | 0, _, _ => none
  | fuel + 1, cur, acc =>
    match alookup prev cur with
    | none => some acc
    | some p => reconstructGo prev fuel p (p :: acc)

/-- Reconstruct path from the chain root to end using the prev map returned by
dijkstra. -/
def reconstruct_path (prev : List (T × T)) (fuel : Nat) (e : T) : Option (List T) :=
  reconstructGo prev fuel e [e]

/-! Concrete graphs from the spec and the repository's unit tests. -/

/-- The four-node vertex type of the spec's example graphs. -/
inductive V4 where
  | A | B | C | D
deriving DecidableEq, Fintype

/-- DFS example graph: A has neighbors [B, C], B has [D], C has [D], D none. -/
def dfsG : V4 → List V4
  | .A => [.B, .C]
  | .B => [.D]
  | .C => [.D]
  | .D => []

/-- Two-node cycle A to B to A, exercising a neighbor that is already visited
when its predecessor is expanded. -/
def loopG : V4 → List V4
  | .A => [.B]
  | .B => [.A]
  | _ => []

/-- Stale-entry example graph: edges A to B cost 5, A to C cost 10, B to C
cost 1; the costlier path to C is discovered first. -/
def staleG : V4 → List (V4 × Int)
  | .A => [(.B, 5), (.C, 10)]
  | .B => [(.C, 1)]
  | _ => []

/-- Weighted example graph of the repository's tests: A to B cost 1, A to C
cost 5, B to D cost 2, C to D cost 1. -/
def dijG : V4 → List (V4 × Int)
  | .A => [(.B, 1), (.C, 5)]
  | .B => [(.D, 2)]
  | .C => [(.D, 1)]
  | .D => []

/-- Unweighted line graph A - B - C - D of the repository's bfs test. -/
def lineG : V4 → List V4
  | .A => [.B]
  | .B => [.A, .C]
  | .C => [.B, .D]
  | .D => [.C]

/-! Specification-side definitions: reachable states of a loop, chains of
predecessor entries, the loop invariants used in the proofs, and the loop
measures used for the termination proofs on finite node types. -/

/-- The key set of an association list. -/
def keysF (m : List (T × β)) : Finset T := (m.map Prod.fst).toFinset

/-- Loop measure of bfs on a finite node type: queue length plus number of
nodes without a distance entry. One iteration decreases it by exactly one. -/
def bfsMeasure [Fintype T] (st : BfsState T) : Nat :=
  st.q.length + (Finset.univ \ keysF st.dist).card

/-- Loop measure of dfs on a finite node type. One iteration decreases it. -/
def dfsMeasure [Fintype T] (nbrs : T → List T) (st : DfsState T) : Nat :=
  st.stack.length + (Finset.univ \ st.visited.toFinset).sum (fun t => 1 + (nbrs t).length)

/-- Loop measure of dijkstra on a finite node type: queue length plus number
of nodes without a distance entry. With non-negative costs one iteration
decreases it by exactly one. -/
def dijMeasure [Fintype T] (st : DijState T) : Nat :=
  st.pq.length + (Finset.univ \ keysF st.dist).card

/-- States of a loop reachable from a given state by iterating its step
function. -/
inductive Steps (f : σ → StepRes σ) : σ → σ → Prop where
  | refl (s : σ) : Steps f s s
  | tail {a b c : σ} : Steps f a b → f b = StepRes.next c → Steps f a c

/-- Following predecessor entries from v eventually reaches start. -/
inductive PrevAcc (prev : List (T × T)) (start : T) : T → Prop where
  | base : PrevAcc prev start start
  | step {v u : T} : alookup prev v = some u → PrevAcc prev start u → PrevAcc prev start v

/-- Following predecessor entries from v back to start yields a path through
real edges of the graph whose edge costs sum to c. -/
inductive PrevSum (prev : List (T × T)) (nbrs : T → List (T × Int)) (start : T) :
    T → Int → Prop where
  | refl : PrevSum prev nbrs start start 0
  | step {u v : T} {w c : Int} : PrevSum prev nbrs start u c → alookup prev v = some u →
      (v, w) ∈ nbrs u → PrevSum prev nbrs start v (c + w)

/-- All edge costs listed by the neighbor function are non-negative
(the caller contract of dijkstra). -/
def Nonneg (nbrs : T → List (T × Int)) : Prop :=
  ∀ u, ∀ vw ∈ nbrs u, 0 ≤ (vw : T × Int).2

/-- Ordering discipline of the bfs frontier: the queue splits into a prefix at
distance D and a suffix at distance D + 1, and every assigned distance is at
most D + 1. -/
def BfsOrd (st : BfsState T) : Prop :=
  ∃ D q1 q2, st.q = q1 ++ q2 ∧ (∀ x ∈ q1, alookup st.dist x = some D) ∧
    (∀ x ∈ q2, alookup st.dist x = some (D + 1)) ∧
    (∀ v n, alookup st.dist v = some n → n ≤ D + 1)

/-- What one pass of the bfs inner loop (over the neighbor list l, at popped
distance d) does to the state: existing entries are kept verbatim, new entries
are fresh neighbors at distance d + 1, and exactly the new entries are
appended to the queue. -/
structure BfsFold (d : Nat) (s sf : BfsState T) (l : List T) : Prop where
  old : ∀ v n, alookup s.dist v = some n → alookup sf.dist v = some n
  new : ∀ v n, alookup sf.dist v = some n →
    alookup s.dist v = some n ∨ (alookup s.dist v = none ∧ n = d + 1 ∧ v ∈ l)
  qext : ∃ news, sf.q = s.q ++ news ∧ news.Nodup ∧
    (∀ x ∈ news, alookup s.dist x = none ∧ alookup sf.dist x = some (d + 1)) ∧
    (∀ v, (alookup sf.dist v).isSome → (alookup s.dist v).isSome ∨ v ∈ news)
  cover : ∀ nb ∈ l, (alookup sf.dist nb).isSome

/-- Loop invariant of bfs. -/
structure BfsInv (nbrs : T → List T) (start : T) (st : BfsState T) : Prop where
  start0 : alookup st.dist start = some 0
  qkeys : ∀ x ∈ st.q, (alookup st.dist x).isSome
  qnd : st.q.Nodup
  paths : ∀ v n, alookup st.dist v = some n → NPath nbrs start v n
  ord : BfsOrd st
  clos : ∀ u m, alookup st.dist u = some m → u ∉ st.q →
    ∀ nb ∈ nbrs u, ∃ k, alookup st.dist nb = some k ∧ k ≤ m + 1

/-- Loop invariant of dfs. -/
structure DfsInv (nbrs : T → List T) (start : T) (st : DfsState T) : Prop where
  visR : ∀ x ∈ st.visited, ∃ n, NPath nbrs start x n
  stkR : ∀ x ∈ st.stack, ∃ n, NPath nbrs start x n
  ordNd : st.order.Nodup
  ordVis : ∀ x, x ∈ st.order ↔ x ∈ st.visited
  clos : ∀ x ∈ st.visited, ∀ nb ∈ nbrs x, nb ∈ st.visited ∨ nb ∈ st.stack
  first : (st.visited = [] ∧ st.order = [] ∧ st.stack = [start]) ∨
    (st.order.head? = some start ∧ start ∈ st.visited)

/-- Loop invariant of dijkstra. Finalized means: the node has a distance entry
but is no longer in the priority queue. -/
structure DijInv (nbrs : T → List (T × Int)) (start : T) (st : DijState T) : Prop where
  distNd : (st.dist.map Prod.fst).Nodup
  pqNd : (st.pq.map Prod.fst).Nodup
  pqdist : ∀ u d, alookup st.pq u = some d → alookup st.dist u = some d
  start0 : alookup st.dist start = some 0
  paths : ∀ v c, alookup st.dist v = some c → WPath nbrs start v c
  fin : ∀ v c, alookup st.dist v = some c → alookup st.pq v = none → ∀ e ∈ st.pq, c ≤ e.2
  clos : ∀ u c, alookup st.dist u = some c → alookup st.pq u = none →
    ∀ vw ∈ nbrs u, ∃ c', alookup st.dist (vw : T × Int).1 = some c' ∧ c' ≤ c + vw.2
  prevE : ∀ v u, alookup st.prev v = some u → ∃ w cv cu, (v, w) ∈ nbrs u ∧
    alookup st.dist v = some cv ∧ alookup st.dist u = some cu ∧ cu + w ≤ cv
  prevDom : ∀ v c, alookup st.dist v = some c → v ≠ start → (alookup st.prev v).isSome
  prevStart : alookup st.prev start = none
  chain : ∀ v c, alookup st.dist v = some c → PrevAcc st.prev start v

/-- Invariant maintained while the dijkstra inner loop relaxes the neighbor
list of a popped node u at distance d; processed is the list of neighbor pairs
already handled. -/
structure ExpInv (nbrs : T → List (T × Int)) (start : T) (u : T) (d : Int)
    (processed : List (T × Int)) (st : DijState T) : Prop where
  distNd : (st.dist.map Prod.fst).Nodup
  pqNd : (st.pq.map Prod.fst).Nodup
  pqdist : ∀ x e, alookup st.pq x = some e → alookup st.dist x = some e
  start0 : alookup st.dist start = some 0
  paths : ∀ v c, alookup st.dist v = some c → WPath nbrs start v c
  udist : alookup st.dist u = some d
  upq : alookup st.pq u = none
  pqlb : ∀ e ∈ st.pq, d ≤ (e : T × Int).2
  finLe : ∀ v c, alookup st.dist v = some c → alookup st.pq v = none → v ≠ u → c ≤ d
  closOld : ∀ x c, alookup st.dist x = some c → alookup st.pq x = none → x ≠ u →
    ∀ vw ∈ nbrs x, ∃ c', alookup st.dist (vw : T × Int).1 = some c' ∧ c' ≤ c + vw.2
  closNew : ∀ vw ∈ processed, ∃ c',
    alookup st.dist (vw : T × Int).1 = some c' ∧ c' ≤ d + vw.2
  prevE : ∀ v x, alookup st.prev v = some x → ∃ w cv cx, (v, w) ∈ nbrs x ∧
    alookup st.dist v = some cv ∧ alookup st.dist x = some cx ∧ cx + w ≤ cv
  prevDom : ∀ v c, alookup st.dist v = some c → v ≠ start → (alookup st.prev v).isSome
  prevStart : alookup st.prev start = none
  chain : ∀ v c, alookup st.dist v = some c → PrevAcc st.prev start v

@[simp] theorem alookup_nil (x : T) : alookup ([] : List (T × β)) x = none := rfl

@[simp] theorem alookup_cons (k : T) (v : β) (rest : List (T × β)) (x : T) :
    alookup ((k, v) :: rest) x = if x = k then some v else alookup rest x := rfl

@[simp] theorem ainsert_nil (k : T) (v : β) : ainsert ([] : List (T × β)) k v = [(k, v)] := rfl

theorem alookup_ainsert (m : List (T × β)) (k : T) (v : β) (x : T) :
    alookup (ainsert m k v) x = if x = k then some v else alookup m x := by
  induction m with
  | nil => simp [ainsert]
  | cons hd tl ih =>
    obtain ⟨k', v'⟩ := hd
    by_cases hk : k = k'
    · subst hk
      by_cases hx : x = k <;> simp [ainsert, hx]
    · by_cases hx : x = k
      · subst hx
        simp [ainsert, hk, ih]
      · by_cases hx' : x = k' <;> simp [ainsert, hk, hx, hx', ih, Ne.symm hk]

@[simp] theorem alookup_ainsert_self (m : List (T × β)) (k : T) (v : β) :
    alookup (ainsert m k v) k = some v := by simp [alookup_ainsert]

theorem alookup_ainsert_ne (m : List (T × β)) (k : T) (v : β) (x : T) (h : x ≠ k) :
    alookup (ainsert m k v) x = alookup m x := by simp [alookup_ainsert, h]

theorem mem_keys_of_alookup {m : List (T × β)} {x : T} {v : β}
    (h : alookup m x = some v) : x ∈ m.map Prod.fst := by
  induction m with
  | nil => simp [alookup] at h
  | cons hd tl ih =>
    obtain ⟨k', v'⟩ := hd
    by_cases hx : x = k'
    · simp [hx]
    · simp [alookup, hx] at h
      simp [ih h]

theorem alookup_eq_none_of_not_mem {m : List (T × β)} {x : T}
    (h : x ∉ m.map Prod.fst) : alookup m x = none := by
  induction m with
  | nil => rfl
  | cons hd tl ih =>
    obtain ⟨k', v'⟩ := hd
    simp only [List.map_cons, List.mem_cons] at h
    push_neg at h
    simp [alookup, h.1, ih h.2]

theorem alookup_isSome_iff {m : List (T × β)} {x : T} :
    (alookup m x).isSome ↔ x ∈ m.map Prod.fst := by
  constructor
  · intro h
    obtain ⟨v, hv⟩ := Option.isSome_iff_exists.mp h
    exact mem_keys_of_alookup hv
  · intro h
    by_contra hc
    rw [Option.not_isSome_iff_eq_none] at hc
    induction m with
    | nil => simp at h
    | cons hd tl ih =>
      obtain ⟨k', v'⟩ := hd
      by_cases hx : x = k'
      · simp [alookup, hx] at hc
      · simp only [List.map_cons, List.mem_cons] at h
        simp [alookup, hx] at hc
        exact ih (h.resolve_left hx) hc

theorem keys_ainsert (m : List (T × β)) (k : T) (v : β) (x : T) :
    x ∈ (ainsert m k v).map Prod.fst ↔ x = k ∨ x ∈ m.map Prod.fst := by
  induction m with
  | nil => simp
  | cons hd tl ih =>
    obtain ⟨k', v'⟩ := hd
    by_cases hk : k = k'
    · subst hk
      simp [ainsert]
    · simp [ainsert, hk, ih]
      tauto

theorem mem_of_alookup_eq_some {m : List (T × β)} {x : T} {v : β}
    (h : alookup m x = some v) : (x, v) ∈ m := by
  induction m with
  | nil => simp [alookup] at h
  | cons hd tl ih =>
    obtain ⟨k', v'⟩ := hd
    by_cases hx : x = k'
    · simp [alookup, hx] at h
      simp [hx, h]
    · simp [alookup, hx] at h
      simp [ih h]

theorem alookup_append (a b : List (T × β)) (x : T) :
    alookup (a ++ b) x =
      match alookup a x with
      | some v => some v
      | none => alookup b x := by
  induction a with
  | nil => simp
  | cons hd tl ih =>
    obtain ⟨k', v'⟩ := hd
    by_cases hx : x = k' <;> simp [alookup, hx, ih]

theorem alookup_eq_of_mem_nodup {m : List (T × β)} {k : T} {v : β}
    (hnd : (m.map Prod.fst).Nodup) (hmem : (k, v) ∈ m) : alookup m k = some v := by
  induction m with
  | nil => simp at hmem
  | cons hd tl ih =>
    obtain ⟨k', v'⟩ := hd
    simp only [List.map_cons, List.nodup_cons] at hnd
    rcases List.mem_cons.mp hmem with h | h
    · rw [Prod.mk.injEq] at h
      simp [alookup, h.1, h.2]
    · have hk : k ≠ k' := by
        rintro rfl
        exact hnd.1 (List.mem_map.mpr ⟨(k, v), h, rfl⟩)
      simp [alookup, hk, ih hnd.2 h]

theorem keys_nodup_ainsert {m : List (T × β)} (k : T) (v : β)
    (hnd : (m.map Prod.fst).Nodup) : ((ainsert m k v).map Prod.fst).Nodup := by
  induction m with
  | nil => simp
  | cons hd tl ih =>
    obtain ⟨k', v'⟩ := hd
    simp only [List.map_cons, List.nodup_cons] at hnd
    by_cases hk : k = k'
    · subst hk
      simpa [ainsert] using hnd
    · simp only [ainsert, if_neg hk, List.map_cons, List.nodup_cons]
      refine ⟨fun hc => ?_, ih hnd.2⟩
      rcases (List.mem_map.mp hc) with ⟨p, hp, hfst⟩
      rcases (keys_ainsert tl k v k').mp (List.mem_map.mpr ⟨p, hp, hfst⟩) with h | h
      · exact hk h.symm
      · exact hnd.1 h

@[simp] theorem popMin_nil : popMin ([] : List (T × Int)) = none := rfl

theorem popMin_eq_none_iff {l : List (T × Int)} : popMin l = none ↔ l = [] := by
  cases l with
  | nil => simp
  | cons hd tl =>
    obtain ⟨u, d⟩ := hd
    simp only [popMin]
    constructor
    · intro h
      cases hpm : popMin tl with
      | none => simp [hpm] at h
      | some p =>
        obtain ⟨⟨u', d'⟩, rest'⟩ := p
        by_cases hle : d ≤ d' <;> simp [hpm, hle] at h
    · intro h
      simp at h

theorem popMin_split {l : List (T × Int)} {u : T} {d : Int} {rest : List (T × Int)}
    (h : popMin l = some ((u, d), rest)) :
    ∃ l1 l2, l = l1 ++ (u, d) :: l2 ∧ rest = l1 ++ l2 := by
  induction l generalizing u d rest with
  | nil => simp at h
  | cons hd tl ih =>
    obtain ⟨a, b⟩ := hd
    simp only [popMin] at h
    cases hpm : popMin tl with
    | none =>
      rw [hpm] at h
      simp only [Option.some.injEq, Prod.mk.injEq] at h
      obtain ⟨⟨h1, h2⟩, h3⟩ := h
      exact ⟨[], tl, by simp [h1, h2, h3]⟩
    | some p =>
      obtain ⟨⟨u', d'⟩, rest'⟩ := p
      rw [hpm] at h
      by_cases hle : b ≤ d'
      · simp only [if_pos hle, Option.some.injEq, Prod.mk.injEq] at h
        obtain ⟨⟨h1, h2⟩, h3⟩ := h
        exact ⟨[], tl, by simp [h1, h2, h3]⟩
      · simp only [if_neg hle, Option.some.injEq, Prod.mk.injEq] at h
        obtain ⟨⟨h1, h2⟩, h3⟩ := h
        subst h1 h2
        obtain ⟨l1, l2, hl, hr⟩ := ih hpm
        exact ⟨(a, b) :: l1, l2, by simp [hl], by simp [← h3, hr]⟩

theorem popMin_le {l : List (T × Int)} {u : T} {d : Int} {rest : List (T × Int)}
    (h : popMin l = some ((u, d), rest)) : ∀ x ∈ l, d ≤ x.2 := by
  induction l generalizing u d rest with
  | nil => simp at h
  | cons hd tl ih =>
    obtain ⟨a, b⟩ := hd
    simp only [popMin] at h
    cases hpm : popMin tl with
    | none =>
      have htl : tl = [] := popMin_eq_none_iff.mp hpm
      rw [hpm] at h
      simp only [Option.some.injEq, Prod.mk.injEq] at h
      obtain ⟨⟨h1, h2⟩, h3⟩ := h
      subst h2 htl
      simp
    | some p =>
      obtain ⟨⟨u', d'⟩, rest'⟩ := p
      rw [hpm] at h
      by_cases hle : b ≤ d'
      · simp only [if_pos hle, Option.some.injEq, Prod.mk.injEq] at h
        obtain ⟨⟨h1, h2⟩, h3⟩ := h
        subst h2
        intro x hx
        rcases List.mem_cons.mp hx with rfl | hx
        · rfl
        · exact le_trans hle (ih hpm x hx)
      · simp only [if_neg hle, Option.some.injEq, Prod.mk.injEq] at h
        obtain ⟨⟨h1, h2⟩, h3⟩ := h
        subst h2
        intro x hx
        rcases List.mem_cons.mp hx with rfl | hx
        · exact le_of_lt (lt_of_not_le hle)
        · exact ih hpm x hx

theorem popMin_mem {l : List (T × Int)} {u : T} {d : Int} {rest : List (T × Int)}
    (h : popMin l = some ((u, d), rest)) : (u, d) ∈ l := by
  obtain ⟨l1, l2, hl, _⟩ := popMin_split h
  simp [hl]

theorem popMin_alookup_ne {l : List (T × Int)} {u : T} {d : Int} {rest : List (T × Int)}
    (h : popMin l = some ((u, d), rest)) (x : T) (hx : x ≠ u) :
    alookup rest x = alookup l x := by
  obtain ⟨l1, l2, hl, hr⟩ := popMin_split h
  subst hl hr
  rw [alookup_append, alookup_append]
  cases alookup l1 x with
  | some v => simp
  | none => simp [alookup, hx]

theorem popMin_keys_sub {l : List (T × Int)} {u : T} {d : Int} {rest : List (T × Int)}
    (h : popMin l = some ((u, d), rest)) :
    ∀ x ∈ rest.map Prod.fst, x ∈ l.map Prod.fst := by
  obtain ⟨l1, l2, hl, hr⟩ := popMin_split h
  subst hl hr
  intro x hx
  simp only [List.map_append, List.mem_append] at hx ⊢
  rcases hx with hx | hx
  · exact Or.inl hx
  · exact Or.inr (by simp [hx])

theorem popMin_keys_nodup {l : List (T × Int)} {u : T} {d : Int} {rest : List (T × Int)}
    (h : popMin l = some ((u, d), rest)) (hnd : (l.map Prod.fst).Nodup) :
    (rest.map Prod.fst).Nodup ∧ u ∉ rest.map Prod.fst := by
  obtain ⟨l1, l2, hl, hr⟩ := popMin_split h
  subst hl hr
  simp only [List.map_append, List.map_cons] at hnd ⊢
  have h1 := List.Nodup.of_append_left hnd
  have h2 := List.Nodup.of_append_right hnd
  have hdisj := List.disjoint_of_nodup_append hnd
  constructor
  · exact List.Nodup.append h1 (h2.of_cons) (fun a ha hb => hdisj ha (List.mem_cons_of_mem _ hb))
  · intro hc
    rcases List.mem_append.mp hc with hc | hc
    · exact hdisj hc (List.mem_cons_self _ _)
    · exact (List.nodup_cons.mp h2).1 hc

/-- dfsPushes pushes the not-yet-visited neighbors in listed order, so they end
up on top of the stack in reversed order. -/
theorem dfsPushes_eq (vis : List T) (l : List T) (s : List T) :
    dfsPushes vis l s = (l.filter (fun nb => decide (nb ∉ vis))).reverse ++ s := by
  induction l generalizing s with
  | nil => simp [dfsPushes]
  | cons nb tl ih =>
    by_cases hnb : nb ∈ vis
    · simp [dfsPushes, hnb, List.filter] at ih ⊢
      simpa [hnb] using ih s
    · simp only [dfsPushes, List.foldl_cons, if_neg hnb] at ih ⊢
      rw [show (List.foldl (fun s nb => if nb ∈ vis then s else nb :: s) (nb :: s) tl) =
        (List.filter (fun nb => decide (nb ∉ vis)) tl).reverse ++ (nb :: s) from ih (nb :: s)]
      simp [hnb]

theorem mem_dfsPushes (vis : List T) (l : List T) (s : List T) (x : T) :
    x ∈ dfsPushes vis l s ↔ x ∈ s ∨ (x ∈ l ∧ x ∉ vis) := by
  rw [dfsPushes_eq]
  simp [List.mem_filter]
  tauto

theorem foldl_preserve {α σ : Type _} {P : σ → Prop} {f : σ → α → σ} :
    ∀ (l : List α) (s : σ), (∀ s' a, a ∈ l → P s' → P (f s' a)) → P s → P (l.foldl f s) := by
  intro l
  induction l with
  | nil => intro s _ hs; simpa using hs
  | cons a tl ih =>
    intro s hf hs
    simp only [List.foldl_cons]
    exact ih (f s a) (fun s' x hx => hf s' x (List.mem_cons_of_mem _ hx))
      (hf s a (List.mem_cons_self _ _) hs)

/-! Equations for the three step functions and for relax, one per source
branch. -/

theorem relax_none {st : DijState T} {u : T} {d : Int} {vw : T × Int}
    (h : alookup st.dist vw.1 = none) :
    relax u d st vw = ⟨ainsert st.dist vw.1 (d + vw.2), ainsert st.prev vw.1 u,
      ainsert st.pq vw.1 (d + vw.2)⟩ := by
  simp [relax, h]

theorem relax_lt {st : DijState T} {u : T} {d : Int} {vw : T × Int} {old : Int}
    (h : alookup st.dist vw.1 = some old) (hlt : d + vw.2 < old) :
    relax u d st vw = ⟨ainsert st.dist vw.1 (d + vw.2), ainsert st.prev vw.1 u,
      ainsert st.pq vw.1 (d + vw.2)⟩ := by
  simp [relax, h, hlt]

theorem relax_ge {st : DijState T} {u : T} {d : Int} {vw : T × Int} {old : Int}
    (h : alookup st.dist vw.1 = some old) (hge : ¬ d + vw.2 < old) :
    relax u d st vw = st := by
  simp [relax, h, hge]

theorem bfsStep_nil (nbrs : T → List T) {st : BfsState T} (h : st.q = []) :
    bfsStep nbrs st = StepRes.done := by
  simp [bfsStep, h]

theorem bfsStep_cons (nbrs : T → List T) {st : BfsState T} {cur : T} {rest : List T}
    {d : Nat} (hq : st.q = cur :: rest) (hl : alookup st.dist cur = some d) :
    bfsStep nbrs st = StepRes.next ((nbrs cur).foldl (bfsRelax d) ⟨st.dist, rest⟩) := by
  simp [bfsStep, hq, hl]

theorem bfsStep_missing (nbrs : T → List T) {st : BfsState T} {cur : T} {rest : List T}
    (hq : st.q = cur :: rest) (hl : alookup st.dist cur = none) :
    bfsStep nbrs st = StepRes.panic := by
  simp [bfsStep, hq, hl]

theorem dfsStep_nil (nbrs : T → List T) {st : DfsState T} (h : st.stack = []) :
    dfsStep nbrs st = StepRes.done := by
  simp [dfsStep, h]

theorem dfsStep_skip (nbrs : T → List T) {st : DfsState T} {cur : T} {rest : List T}
    (hq : st.stack = cur :: rest) (hv : cur ∈ st.visited) :
    dfsStep nbrs st = StepRes.next ⟨st.visited, rest, st.order⟩ := by
  simp [dfsStep, hq, hv]

theorem dfsStep_expand (nbrs : T → List T) {st : DfsState T} {cur : T} {rest : List T}
    (hq : st.stack = cur :: rest) (hv : cur ∉ st.visited) :
    dfsStep nbrs st = StepRes.next ⟨cur :: st.visited,
      dfsPushes (cur :: st.visited) (nbrs cur) rest, st.order ++ [cur]⟩ := by
  simp [dfsStep, hq, hv]

theorem dijStep_done (nbrs : T → List (T × Int)) {st : DijState T}
    (h : popMin st.pq = none) : dijStep nbrs st = StepRes.done := by
  simp [dijStep, h]

theorem dijStep_missing (nbrs : T → List (T × Int)) {st : DijState T} {u : T} {d : Int}
    {rest : List (T × Int)} (hpm : popMin st.pq = some ((u, d), rest))
    (hl : alookup st.dist u = none) : dijStep nbrs st = StepRes.panic := by
  simp [dijStep, hpm, hl]

theorem dijStep_stale (nbrs : T → List (T × Int)) {st : DijState T} {u : T} {d du : Int}
    {rest : List (T × Int)} (hpm : popMin st.pq = some ((u, d), rest))
    (hl : alookup st.dist u = some du) (hlt : du < d) :
    dijStep nbrs st = StepRes.next ⟨st.dist, st.prev, rest⟩ := by
  simp [dijStep, hpm, hl, hlt]

theorem dijStep_expand (nbrs : T → List (T × Int)) {st : DijState T} {u : T} {d du : Int}
    {rest : List (T × Int)} (hpm : popMin st.pq = some ((u, d), rest))
    (hl : alookup st.dist u = some du) (hge : ¬ du < d) :
    dijStep nbrs st =
      StepRes.next ((nbrs u).foldl (relax u d) ⟨st.dist, st.prev, rest⟩) := by
  simp [dijStep, hpm, hl, hge]

/-- Shape of a successful bfs iteration. -/
theorem bfsStep_next (nbrs : T → List T) {st st' : BfsState T}
    (h : bfsStep nbrs st = StepRes.next st') :
    ∃ cur rest d, st.q = cur :: rest ∧ alookup st.dist cur = some d ∧
      st' = (nbrs cur).foldl (bfsRelax d) ⟨st.dist, rest⟩ := by
  cases hq : st.q with
  | nil =>
    rw [bfsStep_nil nbrs hq] at h
    exact StepRes.noConfusion h
  | cons cur rest =>
    cases hl : alookup st.dist cur with
    | none =>
      rw [bfsStep_missing nbrs hq hl] at h
      exact StepRes.noConfusion h
    | some d =>
      rw [bfsStep_cons nbrs hq hl] at h
      exact ⟨cur, rest, d, rfl, hl, (StepRes.next.inj h).symm⟩

/-- Shape of a successful dfs iteration. -/
theorem dfsStep_next (nbrs : T → List T) {st st' : DfsState T}
    (h : dfsStep nbrs st = StepRes.next st') :
    ∃ cur rest, st.stack = cur :: rest ∧
      ((cur ∈ st.visited ∧ st' = ⟨st.visited, rest, st.order⟩) ∨
       (cur ∉ st.visited ∧ st' = ⟨cur :: st.visited,
         dfsPushes (cur :: st.visited) (nbrs cur) rest, st.order ++ [cur]⟩)) := by
  cases hq : st.stack with
  | nil =>
    rw [dfsStep_nil nbrs hq] at h
    exact StepRes.noConfusion h
  | cons cur rest =>
    by_cases hv : cur ∈ st.visited
    · rw [dfsStep_skip nbrs hq hv] at h
      exact ⟨cur, rest, rfl, Or.inl ⟨hv, (StepRes.next.inj h).symm⟩⟩
    · rw [dfsStep_expand nbrs hq hv] at h
      exact ⟨cur, rest, rfl, Or.inr ⟨hv, (StepRes.next.inj h).symm⟩⟩

/-- Shape of a successful dijkstra iteration. -/
theorem dijStep_next (nbrs : T → List (T × Int)) {st st' : DijState T}
    (h : dijStep nbrs st = StepRes.next st') :
    ∃ u d du rest, popMin st.pq = some ((u, d), rest) ∧ alookup st.dist u = some du ∧
      ((du < d ∧ st' = ⟨st.dist, st.prev, rest⟩) ∨
       (¬ du < d ∧ st' = (nbrs u).foldl (relax u d) ⟨st.dist, st.prev, rest⟩)) := by
  cases hpm : popMin st.pq with
  | none =>
    rw [dijStep_done nbrs hpm] at h
    exact StepRes.noConfusion h
  | some p =>
    obtain ⟨⟨u, d⟩, rest⟩ := p
    cases hl : alookup st.dist u with
    | none =>
      rw [dijStep_missing nbrs hpm hl] at h
      exact StepRes.noConfusion h
    | some du =>
      by_cases hlt : du < d
      · rw [dijStep_stale nbrs hpm hl hlt] at h
        exact ⟨u, d, du, rest, rfl, hl, Or.inl ⟨hlt, (StepRes.next.inj h).symm⟩⟩
      · rw [dijStep_expand nbrs hpm hl hlt] at h
        exact ⟨u, d, du, rest, rfl, hl, Or.inr ⟨hlt, (StepRes.next.inj h).symm⟩⟩

/-- The bfs inner loop satisfies its summary BfsFold. -/
theorem bfsFold_spec (nbrs : T → List T) (d : Nat) (l : List T) :
    ∀ s : BfsState T, BfsFold d s (l.foldl (bfsRelax d) s) l := by
  induction l with
  | nil =>
    intro s
    exact {
      old := fun v n h => by simpa using h
      new := fun v n h => Or.inl (by simpa using h)
      qext := ⟨[], by simp, by simp, by simp, fun v h => Or.inl (by simpa using h)⟩
      cover := by simp }
  | cons nb tl ih =>
    intro s
    rw [List.foldl_cons]
    by_cases hmem : (alookup s.dist nb).isSome
    · rw [show bfsRelax d s nb = s from by simp [bfsRelax, hmem]]
      have hf := ih s
      exact {
        old := hf.old
        new := fun v n h => (hf.new v n h).imp id
          (fun hh => ⟨hh.1, hh.2.1, List.mem_cons_of_mem _ hh.2.2⟩)
        qext := hf.qext
        cover := by
          intro x hx
          rcases List.mem_cons.mp hx with rfl | hx
          · obtain ⟨n, hn⟩ := Option.isSome_iff_exists.mp hmem
            exact Option.isSome_iff_exists.mpr ⟨n, hf.old _ _ hn⟩
          · exact hf.cover x hx }
    · have hnone : alookup s.dist nb = none := Option.not_isSome_iff_eq_none.mp hmem
      rw [show bfsRelax d s nb = ⟨ainsert s.dist nb (d + 1), s.q ++ [nb]⟩ from by
        simp [bfsRelax, hmem]]
      have hf := ih ⟨ainsert s.dist nb (d + 1), s.q ++ [nb]⟩
      have hnb1 : alookup (ainsert s.dist nb (d + 1)) nb = some (d + 1) := by simp
      refine {
        old := fun v n h => ?_
        new := fun v n h => ?_
        qext := ?_
        cover := fun x hx => ?_ }
      · have hvnb : v ≠ nb := fun he => by rw [he, hnone] at h; exact Option.noConfusion h
        refine hf.old v n ?_
        show alookup (ainsert s.dist nb (d + 1)) v = some n
        rw [alookup_ainsert_ne _ _ _ _ hvnb]
        exact h
      · rcases hf.new v n h with h1 | h1
        · by_cases hv : v = nb
          · subst hv
            rw [hnb1] at h1
            exact Or.inr ⟨hnone, (Option.some.inj h1).symm, List.mem_cons_self _ _⟩
          · rw [show alookup (⟨ainsert s.dist nb (d + 1), s.q ++ [nb]⟩ :
              BfsState T).dist v = alookup s.dist v from
              alookup_ainsert_ne _ _ _ _ hv] at h1
            exact Or.inl h1
        · have hv : v ≠ nb := fun he => by
            rw [he] at h1
            rw [show alookup (⟨ainsert s.dist nb (d + 1), s.q ++ [nb]⟩ :
              BfsState T).dist nb = some (d + 1) from hnb1] at h1
            exact Option.noConfusion h1.1
          rw [show alookup (⟨ainsert s.dist nb (d + 1), s.q ++ [nb]⟩ :
            BfsState T).dist v = alookup s.dist v from
            alookup_ainsert_ne _ _ _ _ hv] at h1
          exact Or.inr ⟨h1.1, h1.2.1, List.mem_cons_of_mem _ h1.2.2⟩
      · obtain ⟨news1, hq, hnd, hnews, hcov⟩ := hf.qext
        refine ⟨nb :: news1, ?_, ?_, ?_, ?_⟩
        · rw [hq]
          simp
        · refine List.nodup_cons.mpr ⟨fun hc => ?_, hnd⟩
          have h1 := (hnews nb hc).1
          rw [show alookup (⟨ainsert s.dist nb (d + 1), s.q ++ [nb]⟩ :
            BfsState T).dist nb = some (d + 1) from hnb1] at h1
          exact Option.noConfusion h1
        · intro x hx
          rcases List.mem_cons.mp hx with rfl | hx
          · exact ⟨hnone, hf.old _ _ hnb1⟩
          · have h1 := hnews x hx
            have hxnb : x ≠ nb := fun he => by
              rw [he] at h1
              rw [show alookup (⟨ainsert s.dist nb (d + 1), s.q ++ [nb]⟩ :
                BfsState T).dist nb = some (d + 1) from hnb1] at h1
              exact Option.noConfusion h1.1
            rw [show alookup (⟨ainsert s.dist nb (d + 1), s.q ++ [nb]⟩ :
              BfsState T).dist x = alookup s.dist x from
              alookup_ainsert_ne _ _ _ _ hxnb] at h1
            exact h1
        · intro v hv
          rcases hcov v hv with h1 | h1
          · by_cases hvnb : v = nb
            · exact Or.inr (by simp [hvnb])
            · rw [show alookup (⟨ainsert s.dist nb (d + 1), s.q ++ [nb]⟩ :
                BfsState T).dist v = alookup s.dist v from
                alookup_ainsert_ne _ _ _ _ hvnb] at h1
              exact Or.inl h1
          · exact Or.inr (List.mem_cons_of_mem _ h1)
      · rcases List.mem_cons.mp hx with rfl | hx
        · exact Option.isSome_iff_exists.mpr ⟨d + 1, hf.old _ _ hnb1⟩
        · exact hf.cover x hx

/-- Queue coverage for bfs: every queued node has a distance entry. -/
def BfsQCov (st : BfsState T) : Prop := ∀ x ∈ st.q, (alookup st.dist x).isSome

theorem bfsStep_qcov {nbrs : T → List T} {st st' : BfsState T}
    (hc : BfsQCov st) (h : bfsStep nbrs st = StepRes.next st') : BfsQCov st' := by
  obtain ⟨cur, rest, d, hq, hl, hst⟩ := bfsStep_next nbrs h
  have hf := bfsFold_spec nbrs d (nbrs cur) ⟨st.dist, rest⟩
  rw [← hst] at hf
  obtain ⟨news, hq', hnd, hnews, _⟩ := hf.qext
  intro x hx
  rw [hq'] at hx
  rcases List.mem_append.mp hx with hx | hx
  · obtain ⟨n, hn⟩ := Option.isSome_iff_exists.mp (hc x (hq ▸ List.mem_cons_of_mem _ hx))
    exact Option.isSome_iff_exists.mpr ⟨n, hf.old x n hn⟩
  · exact Option.isSome_iff_exists.mpr ⟨d + 1, (hnews x hx).2⟩

theorem bfsStep_not_panic {nbrs : T → List T} {st : BfsState T}
    (hc : BfsQCov st) : bfsStep nbrs st ≠ StepRes.panic := by
  intro h
  cases hq : st.q with
  | nil =>
    rw [bfsStep_nil nbrs hq] at h
    exact StepRes.noConfusion h
  | cons cur rest =>
    obtain ⟨d, hl⟩ := Option.isSome_iff_exists.mp (hc cur (hq ▸ List.mem_cons_self _ _))
    rw [bfsStep_cons nbrs hq hl] at h
    exact StepRes.noConfusion h

theorem bfsRun_ne_panic (nbrs : T → List T) :
    ∀ (fuel : Nat) (st : BfsState T), BfsQCov st → bfsRun nbrs fuel st ≠ Res.keyPanic := by
  intro fuel
  induction fuel with
  | zero => intro st _ h; exact Res.noConfusion h
  | succ n ih =>
    intro st hc h
    unfold bfsRun at h
    cases hs : bfsStep nbrs st with
    | done => rw [hs] at h; exact Res.noConfusion h
    | panic => exact bfsStep_not_panic hc hs
    | next st' =>
      rw [hs] at h
      exact ih st' (bfsStep_qcov hc hs) h

/-- Queue coverage for dijkstra: every queued node has a distance entry. -/
def DijQCov (st : DijState T) : Prop :=
  ∀ x ∈ st.pq.map Prod.fst, (alookup st.dist x).isSome

theorem relax_qcov {u : T} {d : Int} {st : DijState T} (vw : T × Int)
    (hc : DijQCov st) : DijQCov (relax u d st vw) := by
  have hgen : DijQCov (⟨ainsert st.dist vw.1 (d + vw.2), ainsert st.prev vw.1 u,
      ainsert st.pq vw.1 (d + vw.2)⟩ : DijState T) := by
    intro x hx
    rcases (keys_ainsert st.pq vw.1 (d + vw.2) x).mp hx with rfl | hx
    · simp
    · rw [alookup_isSome_iff, keys_ainsert]
      exact Or.inr (alookup_isSome_iff.mp (hc x hx))
  cases hl : alookup st.dist vw.1 with
  | none => rw [relax_none hl]; exact hgen
  | some old =>
    by_cases hlt : d + vw.2 < old
    · rw [relax_lt hl hlt]; exact hgen
    · rw [relax_ge hl hlt]; exact hc

theorem dijStep_qcov {nbrs : T → List (T × Int)} {st st' : DijState T}
    (hc : DijQCov st) (h : dijStep nbrs st = StepRes.next st') : DijQCov st' := by
  obtain ⟨u, d, du, rest, hpm, hl, hcase⟩ := dijStep_next nbrs h
  have hrest : DijQCov (⟨st.dist, st.prev, rest⟩ : DijState T) :=
    fun x hx => hc x (popMin_keys_sub hpm x hx)
  rcases hcase with ⟨_, rfl⟩ | ⟨_, rfl⟩
  · exact hrest
  · exact foldl_preserve (nbrs u) ⟨st.dist, st.prev, rest⟩
      (fun s' a _ hs => relax_qcov a hs) hrest

theorem dijStep_not_panic {nbrs : T → List (T × Int)} {st : DijState T}
    (hc : DijQCov st) : dijStep nbrs st ≠ StepRes.panic := by
  intro h
  cases hpm : popMin st.pq with
  | none =>
    rw [dijStep_done nbrs hpm] at h
    exact StepRes.noConfusion h
  | some p =>
    obtain ⟨⟨u, d⟩, rest⟩ := p
    obtain ⟨du, hl⟩ := Option.isSome_iff_exists.mp
      (hc u (List.mem_map.mpr ⟨(u, d), popMin_mem hpm, rfl⟩))
    by_cases hlt : du < d
    · rw [dijStep_stale nbrs hpm hl hlt] at h
      exact StepRes.noConfusion h
    · rw [dijStep_expand nbrs hpm hl hlt] at h
      exact StepRes.noConfusion h

theorem dijRun_ne_panic (nbrs : T → List (T × Int)) :
    ∀ (fuel : Nat) (st : DijState T), DijQCov st →
      dijRun nbrs fuel st ≠ Res.keyPanic := by
  intro fuel
  induction fuel with
  | zero => intro st _ h; exact Res.noConfusion h
  | succ n ih =>
    intro st hc h
    unfold dijRun at h
    cases hs : dijStep nbrs st with
    | done => rw [hs] at h; exact Res.noConfusion h
    | panic => exact dijStep_not_panic hc hs
    | next st' =>
      rw [hs] at h
      exact ih st' (dijStep_qcov hc hs) h

/-! Lengths and key sets, for the termination measures. -/

theorem ainsert_length_mem {m : List (T × β)} {k : T} (v : β)
    (h : k ∈ m.map Prod.fst) : (ainsert m k v).length = m.length := by
  induction m with
  | nil => simp at h
  | cons hd tl ih =>
    obtain ⟨k', v'⟩ := hd
    by_cases hk : k = k'
    · simp [ainsert, hk]
    · simp only [List.map_cons, List.mem_cons] at h
      simp [ainsert, hk, ih (h.resolve_left hk)]

theorem ainsert_length_not_mem {m : List (T × β)} {k : T} (v : β)
    (h : k ∉ m.map Prod.fst) : (ainsert m k v).length = m.length + 1 := by
  induction m with
  | nil => simp
  | cons hd tl ih =>
    obtain ⟨k', v'⟩ := hd
    simp only [List.map_cons, List.mem_cons] at h
    push_neg at h
    simp [ainsert, h.1, ih h.2]

theorem mem_keysF_iff {m : List (T × β)} {x : T} :
    x ∈ keysF m ↔ (alookup m x).isSome := by
  rw [keysF, List.mem_toFinset, alookup_isSome_iff]

theorem popMin_length {l : List (T × Int)} {u : T} {d : Int} {rest : List (T × Int)}
    (h : popMin l = some ((u, d), rest)) : l.length = rest.length + 1 := by
  obtain ⟨l1, l2, hl, hr⟩ := popMin_split h
  subst hl hr
  simp
  omega

theorem keysF_ainsert (m : List (T × β)) (k : T) (v : β) :
    keysF (ainsert m k v) = insert k (keysF m) := by
  ext x
  simp only [keysF, List.mem_toFinset, Finset.mem_insert]
  rw [keys_ainsert]

/-! Breadth-first search: invariant preservation and correctness. -/

theorem bfsInv_init (nbrs : T → List T) (start : T) : BfsInv nbrs start (bfsInit start) where
  start0 := by simp [bfsInit]
  qkeys := by
    intro x hx
    simp only [bfsInit, List.mem_singleton] at hx
    simp [bfsInit, hx]
  qnd := by simp [bfsInit]
  paths := by
    intro v n h
    simp only [bfsInit, alookup_cons, alookup_nil] at h
    by_cases hv : v = start
    · rw [if_pos hv] at h
      rw [hv, (Option.some.inj h).symm]
      exact NPath.refl
    · rw [if_neg hv] at h
      exact Option.noConfusion h
  ord := by
    refine ⟨0, [start], [], by simp [bfsInit], ?_, by simp, ?_⟩
    · intro x hx
      simp only [List.mem_singleton] at hx
      simp [bfsInit, hx]
    · intro v n h
      simp only [bfsInit, alookup_cons, alookup_nil] at h
      by_cases hv : v = start
      · rw [if_pos hv] at h
        have := Option.some.inj h
        omega
      · rw [if_neg hv] at h
        exact Option.noConfusion h
  clos := by
    intro u m hm hnq
    exfalso
    apply hnq
    simp only [bfsInit, alookup_cons, alookup_nil] at hm
    by_cases hv : u = start
    · simp [bfsInit, hv]
    · rw [if_neg hv] at hm
      exact Option.noConfusion hm

theorem bfsStep_inv {nbrs : T → List T} {start : T} {st st' : BfsState T}
    (hi : BfsInv nbrs start st) (h : bfsStep nbrs st = StepRes.next st') :
    BfsInv nbrs start st' := by
  obtain ⟨cur, rest, d, hq, hl, hst⟩ := bfsStep_next nbrs h
  have hf := bfsFold_spec nbrs d (nbrs cur) ⟨st.dist, rest⟩
  rw [← hst] at hf
  obtain ⟨news, hq', hndnews, hnews, hcov⟩ := hf.qext
  have hqnd : (cur :: rest).Nodup := hq ▸ hi.qnd
  have hcurout : cur ∉ rest := (List.nodup_cons.mp hqnd).1
  obtain ⟨D, q1, q2, hsplit, hq1, hq2, hbound⟩ := hi.ord
  rw [hq] at hsplit
  -- the popped distance bounds every value already assigned
  have hOldBound : ∀ v n, alookup st.dist v = some n → n ≤ d + 1 := by
    cases q1 with
    | nil =>
      simp only [List.nil_append] at hsplit
      have hcurD : alookup st.dist cur = some (D + 1) :=
        hq2 cur (by rw [← hsplit]; exact List.mem_cons_self _ _)
      have hd : d = D + 1 := Option.some.inj (hl.symm.trans hcurD)
      intro v n hv
      have := hbound v n hv
      omega
    | cons c q1' =>
      have hc : c = cur := by
        have := List.cons.injEq .. ▸ hsplit
        simpa using congrArg (fun l => l.head?) hsplit.symm
      have hcurD : alookup st.dist cur = some D :=
        hq1 cur (by rw [← hc]; exact List.mem_cons_self _ _)
      have hd : d = D := Option.some.inj (hl.symm.trans hcurD)
      intro v n hv
      have := hbound v n hv
      omega
  have hqext : st'.q = rest ++ news := hq'
  refine {
    start0 := hf.old start 0 hi.start0
    qkeys := bfsStep_qcov hi.qkeys h
    qnd := ?_
    paths := ?_
    ord := ?_
    clos := ?_ }
  · rw [hqext]
    refine List.Nodup.append (List.nodup_cons.mp hqnd).2 hndnews ?_
    intro x hx1 hx2
    have h1 := (hnews x hx2).1
    have h2 := hi.qkeys x (hq ▸ List.mem_cons_of_mem _ hx1)
    rw [h1] at h2
    simp at h2
  · intro v n hv
    rcases hf.new v n hv with h1 | ⟨h1, rfl, h3⟩
    · exact hi.paths v n h1
    · exact NPath.step (hi.paths cur d hl) h3
  · cases q1 with
    | nil =>
      simp only [List.nil_append] at hsplit
      have hcurD : alookup st.dist cur = some (D + 1) :=
        hq2 cur (by rw [← hsplit]; exact List.mem_cons_self _ _)
      have hd : d = D + 1 := Option.some.inj (hl.symm.trans hcurD)
      have hq2' : q2 = cur :: rest := hsplit.symm
      refine ⟨D + 1, rest, news, by rw [hqext], ?_, ?_, ?_⟩
      · intro x hx
        exact hf.old x (D + 1) (hq2 x (by rw [hq2']; exact List.mem_cons_of_mem _ hx))
      · intro x hx
        have := (hnews x hx).2
        rw [hd] at this
        exact this
      · intro v n hv
        rcases hf.new v n hv with h1 | ⟨_, rfl, _⟩
        · have := hbound v n h1
          omega
        · omega
    | cons c q1' =>
      have hc : c = cur := by
        simpa using congrArg (fun l => l.head?) hsplit.symm
      subst hc
      have hrest : rest = q1' ++ q2 := by
        simpa using congrArg (fun l => l.tail) hsplit
      have hcurD : alookup st.dist c = some D :=
        hq1 c (List.mem_cons_self _ _)
      have hd : d = D := Option.some.inj (hl.symm.trans hcurD)
      refine ⟨D, q1', q2 ++ news, by rw [hqext, hrest, List.append_assoc], ?_, ?_, ?_⟩
      · intro x hx
        exact hf.old x D (hq1 x (List.mem_cons_of_mem _ hx))
      · intro x hx
        rcases List.mem_append.mp hx with hx | hx
        · exact hf.old x (D + 1) (hq2 x hx)
        · have := (hnews x hx).2
          rw [hd] at this
          exact this
      · intro v n hv
        rcases hf.new v n hv with h1 | ⟨_, rfl, _⟩
        · exact hbound v n h1
        · omega
  · intro u m hm hnotq nb hnb
    rcases hf.new u m hm with h1 | ⟨h1, rfl, h3⟩
    · by_cases hu : u = cur
      · subst hu
        have hmd : m = d := Option.some.inj (h1.symm.trans hl)
        subst hmd
        obtain ⟨k, hk⟩ := Option.isSome_iff_exists.mp (hf.cover nb hnb)
        refine ⟨k, hk, ?_⟩
        rcases hf.new nb k hk with h2 | ⟨_, rfl, _⟩
        · exact hOldBound nb k h2
        · omega
      · have hnotq' : u ∉ st.q := by
          rw [hq]
          intro hc
          rcases List.mem_cons.mp hc with rfl | hc
          · exact hu rfl
          · exact hnotq (by rw [hqext]; exact List.mem_append_left _ hc)
        obtain ⟨k, hk, hkle⟩ := hi.clos u m h1 hnotq' nb hnb
        exact ⟨k, hf.old nb k hk, hkle⟩
    · exfalso
      apply hnotq
      rw [hqext]
      refine List.mem_append_right _ ?_
      rcases hcov u (Option.isSome_iff_exists.mpr ⟨_, hm⟩) with hsome | hmem
      · rw [h1] at hsome
        simp at hsome
      · exact hmem

theorem bfsRun_ok {nbrs : T → List T} {start : T} :
    ∀ (fuel : Nat) (st : BfsState T), BfsInv nbrs start st →
      ∀ {dist : List (T × Nat)}, bfsRun nbrs fuel st = Res.ok dist →
      ∃ stf : BfsState T, BfsInv nbrs start stf ∧ stf.dist = dist ∧ stf.q = [] := by
  intro fuel
  induction fuel with
  | zero => intro st _ dist h; exact Res.noConfusion h
  | succ n ih =>
    intro st hi dist h
    unfold bfsRun at h
    cases hs : bfsStep nbrs st with
    | done =>
      rw [hs] at h
      refine ⟨st, hi, Res.ok.inj h, ?_⟩
      cases hq : st.q with
      | nil => rfl
      | cons cur rest =>
        cases hl : alookup st.dist cur with
        | none =>
          rw [bfsStep_missing nbrs hq hl] at hs
          exact StepRes.noConfusion hs
        | some d =>
          rw [bfsStep_cons nbrs hq hl] at hs
          exact StepRes.noConfusion hs
    | panic => rw [hs] at h; exact Res.noConfusion h
    | next st' => rw [hs] at h; exact ih st' (bfsStep_inv hi hs) h

/-- At termination every unweighted path bounds the assigned distance and
forces presence of an entry. -/
theorem bfs_final_min {nbrs : T → List T} {start : T} {stf : BfsState T}
    (hi : BfsInv nbrs start stf) (hq : stf.q = []) :
    ∀ v c, NPath nbrs start v c → ∃ n, alookup stf.dist v = some n ∧ n ≤ c := by
  intro v c hp
  induction hp with
  | refl => exact ⟨0, hi.start0, le_refl 0⟩
  | step hp' hmem ih =>
    obtain ⟨n, hn, hle⟩ := ih
    obtain ⟨k, hk, hkle⟩ := hi.clos _ n hn (by simp [hq]) _ hmem
    exact ⟨k, hk, by omega⟩

/-- One bfs iteration decreases the bfs measure by exactly one. -/
theorem bfsStep_measure [Fintype T] {nbrs : T → List T} {st st' : BfsState T}
    (h : bfsStep nbrs st = StepRes.next st') : bfsMeasure st = bfsMeasure st' + 1 := by
  obtain ⟨cur, rest, d, hq, hl, hst⟩ := bfsStep_next nbrs h
  have hf := bfsFold_spec nbrs d (nbrs cur) ⟨st.dist, rest⟩
  rw [← hst] at hf
  obtain ⟨news, hq', hnd, hnews, hcov⟩ := hf.qext
  have hkeys : keysF st'.dist = keysF st.dist ∪ news.toFinset := by
    ext x
    rw [Finset.mem_union, mem_keysF_iff, mem_keysF_iff, List.mem_toFinset]
    constructor
    · intro hx
      exact hcov x hx
    · intro hx
      rcases hx with h1 | h1
      · obtain ⟨n, hn⟩ := Option.isSome_iff_exists.mp h1
        exact Option.isSome_iff_exists.mpr ⟨n, hf.old x n hn⟩
      · exact Option.isSome_iff_exists.mpr ⟨d + 1, (hnews x h1).2⟩
  have hdisj : ∀ x ∈ news.toFinset, x ∉ keysF st.dist := by
    intro x hx1 hx2
    rw [List.mem_toFinset] at hx1
    rw [mem_keysF_iff, (hnews x hx1).1] at hx2
    simp at hx2
  have hcompl : Finset.univ \ keysF st.dist =
      (Finset.univ \ keysF st'.dist) ∪ news.toFinset := by
    ext x
    simp only [Finset.mem_sdiff, Finset.mem_union, Finset.mem_univ, true_and, hkeys]
    constructor
    · intro hx
      by_cases hb : x ∈ news.toFinset
      · exact Or.inr hb
      · exact Or.inl (fun hc => hc.elim hx hb)
    · intro hx
      rcases hx with hx | hx
      · exact fun hc => hx (Or.inl hc)
      · exact hdisj x hx
  have hdisj2 : Disjoint (Finset.univ \ keysF st'.dist) news.toFinset := by
    rw [Finset.disjoint_right]
    intro x hx
    rw [Finset.mem_sdiff]
    push_neg
    intro _
    rw [hkeys]
    exact Finset.mem_union_right _ hx
  have hcard : (Finset.univ \ keysF st.dist).card =
      (Finset.univ \ keysF st'.dist).card + news.length := by
    rw [hcompl, Finset.card_union_of_disjoint hdisj2, List.toFinset_card_of_nodup hnd]
  have hqlen : st.q.length = rest.length + 1 := by rw [hq]; rfl
  have hqlen' : st'.q.length = rest.length + news.length := by rw [hq']; simp
  unfold bfsMeasure
  omega

/-- On a finite node type, bfs terminates within measure-many iterations. -/
theorem bfsRun_term [Fintype T] (nbrs : T → List T) :
    ∀ (n : Nat) (st : BfsState T), BfsQCov st → bfsMeasure st ≤ n →
      ∃ dist, bfsRun nbrs (n + 1) st = Res.ok dist := by
  intro n
  induction n with
  | zero =>
    intro st hc hm
    have hq : st.q = [] := by
      cases hq : st.q with
      | nil => rfl
      | cons a t =>
        exfalso
        unfold bfsMeasure at hm
        rw [hq] at hm
        simp at hm
    refine ⟨st.dist, ?_⟩
    unfold bfsRun
    rw [bfsStep_nil nbrs hq]
  | succ k ih =>
    intro st hc hm
    cases hq : st.q with
    | nil =>
      refine ⟨st.dist, ?_⟩
      unfold bfsRun
      rw [bfsStep_nil nbrs hq]
    | cons cur rest =>
      obtain ⟨d, hl⟩ := Option.isSome_iff_exists.mp (hc cur (hq ▸ List.mem_cons_self _ _))
      have hs : bfsStep nbrs st =
          StepRes.next ((nbrs cur).foldl (bfsRelax d) ⟨st.dist, rest⟩) :=
        bfsStep_cons nbrs hq hl
      have hmu := bfsStep_measure hs
      obtain ⟨dist, hd⟩ := ih _ (bfsStep_qcov hc hs) (by omega)
      refine ⟨dist, ?_⟩
      show bfsRun nbrs (k + 1 + 1) st = _
      unfold bfsRun
      rw [hs]
      exact hd

/-- C10: the direct map lookups on dequeued nodes never miss: bfs and dijkstra
never reach the missing-key failure branch, for any start, neighbor function
and fuel. -/
theorem claim_C10 {T : Type} [DecidableEq T] (start : T) (nbrs1 : T → List T)
    (nbrsW : T → List (T × Int)) (fuel : Nat) :
    bfs start nbrs1 fuel ≠ Res.keyPanic ∧ dijkstra start nbrsW fuel ≠ Res.keyPanic := by
  constructor
  · exact bfsRun_ne_panic nbrs1 fuel (bfsInit start) (by intro x hx; simp [bfsInit] at hx; simp [bfsInit, hx, alookup])
  · exact dijRun_ne_panic nbrsW fuel (dijInit start) (by intro x hx; simp [dijInit] at hx; simp [dijInit, hx, alookup])

/-! Dijkstra: small helper lemmas. -/

theorem wpath_nonneg {nbrs : T → List (T × Int)} {s v : T} {c : Int}
    (hw : Nonneg nbrs) (hp : WPath nbrs s v c) : 0 ≤ c := by
  induction hp with
  | refl => exact le_refl 0
  | @step u v' w c' hp' hmem ih =>
    have := hw u (v', w) hmem
    omega

theorem mem_ainsert {m : List (T × β)} {k : T} {v : β} {e : T × β}
    (h : e ∈ ainsert m k v) : e = (k, v) ∨ e ∈ m := by
  induction m with
  | nil => simpa [ainsert] using h
  | cons hd tl ih =>
    obtain ⟨k', v'⟩ := hd
    by_cases hk : k = k'
    · subst hk
      rw [show ainsert ((k, v') :: tl) k v = (k, v) :: tl from by simp [ainsert]] at h
      rcases List.mem_cons.mp h with he | h
      · exact Or.inl he
      · exact Or.inr (List.mem_cons_of_mem _ h)
    · rw [show ainsert ((k', v') :: tl) k v = (k', v') :: ainsert tl k v from by
        simp [ainsert, hk]] at h
      rcases List.mem_cons.mp h with he | h
      · exact Or.inr (he ▸ List.mem_cons_self _ _)
      · rcases ih h with h1 | h1
        · exact Or.inl h1
        · exact Or.inr (List.mem_cons_of_mem _ h1)

theorem popMin_rest_sub {l : List (T × Int)} {u : T} {d : Int} {rest : List (T × Int)}
    (h : popMin l = some ((u, d), rest)) : ∀ e ∈ rest, e ∈ l := by
  obtain ⟨l1, l2, hl, hr⟩ := popMin_split h
  subst hl hr
  intro e he
  rcases List.mem_append.mp he with he | he
  · exact List.mem_append_left _ he
  · exact List.mem_append_right _ (List.mem_cons_of_mem _ he)

/-- relax never raises an existing distance entry. -/
theorem relax_dist_le {u : T} {d : Int} {s : DijState T} (vw : T × Int) {v : T} {c : Int}
    (h : alookup s.dist v = some c) :
    ∃ c', alookup (relax u d s vw).dist v = some c' ∧ c' ≤ c := by
  by_cases hv : vw.1 = v
  · cases hl : alookup s.dist vw.1 with
    | none =>
      rw [hv, h] at hl
      exact Option.noConfusion hl
    | some old =>
      have hoc : old = c := by
        have h2 := hl
        rw [hv, h] at h2
        exact (Option.some.inj h2).symm
      by_cases hlt : d + vw.2 < old
      · rw [relax_lt hl hlt]
        refine ⟨d + vw.2, ?_, ?_⟩
        · show alookup (ainsert s.dist vw.1 (d + vw.2)) v = _
          rw [hv]
          simp
        · rw [← hoc]
          exact le_of_lt hlt
      · rw [relax_ge hl hlt]
        exact ⟨c, h, le_refl c⟩
  · cases hl : alookup s.dist vw.1 with
    | none =>
      rw [relax_none hl]
      refine ⟨c, ?_, le_refl c⟩
      show alookup (ainsert s.dist vw.1 (d + vw.2)) v = some c
      rw [alookup_ainsert_ne _ _ _ _ (fun he => hv he.symm)]
      exact h
    | some old =>
      by_cases hlt : d + vw.2 < old
      · rw [relax_lt hl hlt]
        refine ⟨c, ?_, le_refl c⟩
        show alookup (ainsert s.dist vw.1 (d + vw.2)) v = some c
        rw [alookup_ainsert_ne _ _ _ _ (fun he => hv he.symm)]
        exact h
      · rw [relax_ge hl hlt]
        exact ⟨c, h, le_refl c⟩

/-- The relax fold never raises an existing distance entry. -/
theorem relaxFold_dist_le {u : T} {d : Int} :
    ∀ (l : List (T × Int)) (s : DijState T) {v : T} {c : Int},
      alookup s.dist v = some c →
      ∃ c', alookup (l.foldl (relax u d) s).dist v = some c' ∧ c' ≤ c := by
  intro l
  induction l with
  | nil => intro s v c h; exact ⟨c, by simpa using h, le_refl c⟩
  | cons vw tl ih =>
    intro s v c h
    rw [List.foldl_cons]
    obtain ⟨c1, hc1, hle1⟩ := relax_dist_le vw h
    obtain ⟨c2, hc2, hle2⟩ := ih (relax u d s vw) hc1
    exact ⟨c2, hc2, le_trans hle2 hle1⟩

/-- A distance entry at most the popped distance survives the relax fold
unchanged, provided the processed edge costs are non-negative. -/
theorem relaxFold_keeps {u : T} {d : Int} :
    ∀ (l : List (T × Int)) (s : DijState T) {v : T} {c : Int},
      (∀ vw ∈ l, 0 ≤ (vw : T × Int).2) → alookup s.dist v = some c → c ≤ d →
      alookup (l.foldl (relax u d) s).dist v = some c := by
  intro l
  induction l with
  | nil => intro s v c _ h _; simpa using h
  | cons vw tl ih =>
    intro s v c hwl h hcd
    rw [List.foldl_cons]
    have hstep : alookup (relax u d s vw).dist v = some c := by
      by_cases hv : vw.1 = v
      · have hl : alookup s.dist vw.1 = some c := by rw [hv]; exact h
        have hge : ¬ d + vw.2 < c := by
          have := hwl vw (List.mem_cons_self _ _)
          omega
        rw [relax_ge hl hge]
        exact h
      · cases hl : alookup s.dist vw.1 with
        | none =>
          rw [relax_none hl]
          show alookup (ainsert s.dist vw.1 (d + vw.2)) v = some c
          rw [alookup_ainsert_ne _ _ _ _ (fun he => hv he.symm)]
          exact h
        | some old =>
          by_cases hlt : d + vw.2 < old
          · rw [relax_lt hl hlt]
            show alookup (ainsert s.dist vw.1 (d + vw.2)) v = some c
            rw [alookup_ainsert_ne _ _ _ _ (fun he => hv he.symm)]
            exact h
          · rw [relax_ge hl hlt]
            exact h
    exact ih (relax u d s vw) (fun x hx => hwl x (List.mem_cons_of_mem _ hx)) hstep hcd

/-- A predecessor chain all of whose nodes have distance strictly below every
recorded distance of v survives an update of the predecessor entry at v. -/
theorem prevAcc_insert_avoid {prev : List (T × T)} {dist : List (T × Int)}
    {start v u' : T}
    (hmono : ∀ x p, alookup prev x = some p → ∃ cx cp, alookup dist x = some cx ∧
      alookup dist p = some cp ∧ cp ≤ cx) :
    ∀ {x : T}, PrevAcc prev start x →
      ∀ cx, alookup dist x = some cx → (∀ cv, alookup dist v = some cv → cx < cv) →
      PrevAcc (ainsert prev v u') start x := by
  intro x hacc
  induction hacc with
  | base => intro _ _ _; exact PrevAcc.base
  | @step a b hlk hac ih =>
    intro cx hdx hbound
    have hav : a ≠ v := by
      rintro rfl
      exact lt_irrefl cx (hbound cx hdx)
    obtain ⟨cx', cp, hdx', hdp, hle⟩ := hmono a b hlk
    have hcc : cx' = cx := Option.some.inj (hdx'.symm.trans hdx)
    subst hcc
    refine PrevAcc.step ?_ (ih cp hdp ?_)
    · rw [alookup_ainsert_ne _ _ _ _ hav]
      exact hlk
    · intro cv hcv
      exact lt_of_le_of_lt hle (hbound cv hcv)

/-- Once the updated entry's new parent is itself rooted, every previously
rooted node remains rooted after the update. -/
theorem prevAcc_insert_univ {prev : List (T × T)} {start v u : T}
    (hu : PrevAcc (ainsert prev v u) start u) :
    ∀ {x : T}, PrevAcc prev start x → PrevAcc (ainsert prev v u) start x := by
  intro x hx
  induction hx with
  | base => exact PrevAcc.base
  | @step a b hlk hac ih =>
    by_cases hav : a = v
    · subst hav
      exact PrevAcc.step (by simp) hu
    · exact PrevAcc.step (by rw [alookup_ainsert_ne _ _ _ _ hav]; exact hlk) ih

/-- Updating dist, prev and queue priority at a strictly improved (or fresh)
neighbor v preserves the expansion invariant. -/
theorem expInv_update {nbrs : T → List (T × Int)} {start u : T} {d : Int}
    {processed : List (T × Int)} {s : DijState T} (hw : Nonneg nbrs)
    {v : T} {w : Int} (hvw : (v, w) ∈ nbrs u)
    (hinv : ExpInv nbrs start u d processed s)
    (hcond : ∀ old, alookup s.dist v = some old → d + w < old) :
    ExpInv nbrs start u d (processed ++ [(v, w)])
      ⟨ainsert s.dist v (d + w), ainsert s.prev v u, ainsert s.pq v (d + w)⟩ := by
  have hw0 : 0 ≤ w := hw u (v, w) hvw
  have hd0 : 0 ≤ d := wpath_nonneg hw (hinv.paths u d hinv.udist)
  have hvu : v ≠ u := by
    rintro rfl
    have := hcond d hinv.udist
    omega
  have hvstart : v ≠ start := by
    rintro rfl
    have := hcond 0 hinv.start0
    omega
  have hmono : ∀ x p, alookup s.prev x = some p → ∃ cx cp, alookup s.dist x = some cx ∧
      alookup s.dist p = some cp ∧ cp ≤ cx := by
    intro x p hxp
    obtain ⟨w', cx, cp, hmem, hdx, hdp, hle⟩ := hinv.prevE x p hxp
    have hw' : 0 ≤ w' := hw p (x, w') hmem
    exact ⟨cx, cp, hdx, hdp, by omega⟩
  have hu_new : PrevAcc (ainsert s.prev v u) start u :=
    prevAcc_insert_avoid hmono (hinv.chain u d hinv.udist) d hinv.udist
      (fun cv hcv => by have := hcond cv hcv; omega)
  refine {
    distNd := keys_nodup_ainsert _ _ hinv.distNd
    pqNd := keys_nodup_ainsert _ _ hinv.pqNd
    pqdist := ?_
    start0 := ?_
    paths := ?_
    udist := ?_
    upq := ?_
    pqlb := ?_
    finLe := ?_
    closOld := ?_
    closNew := ?_
    prevE := ?_
    prevDom := ?_
    prevStart := ?_
    chain := ?_ }
  · intro x e hx
    have hx' : alookup (ainsert s.pq v (d + w)) x = some e := hx
    show alookup (ainsert s.dist v (d + w)) x = some e
    by_cases hxv : x = v
    · subst hxv
      rw [alookup_ainsert_self] at hx'
      rw [alookup_ainsert_self]
      exact hx'
    · rw [alookup_ainsert_ne _ _ _ _ hxv] at hx'
      rw [alookup_ainsert_ne _ _ _ _ hxv]
      exact hinv.pqdist x e hx'
  · show alookup (ainsert s.dist v (d + w)) start = some 0
    rw [alookup_ainsert_ne _ _ _ _ (Ne.symm hvstart)]
    exact hinv.start0
  · intro x c hx
    have hx' : alookup (ainsert s.dist v (d + w)) x = some c := hx
    by_cases hxv : x = v
    · subst hxv
      rw [alookup_ainsert_self] at hx'
      rw [← Option.some.inj hx']
      exact WPath.step (hinv.paths u d hinv.udist) hvw
    · rw [alookup_ainsert_ne _ _ _ _ hxv] at hx'
      exact hinv.paths x c hx'
  · show alookup (ainsert s.dist v (d + w)) u = some d
    rw [alookup_ainsert_ne _ _ _ _ (Ne.symm hvu)]
    exact hinv.udist
  · show alookup (ainsert s.pq v (d + w)) u = none
    rw [alookup_ainsert_ne _ _ _ _ (Ne.symm hvu)]
    exact hinv.upq
  · intro e he
    have he' : e ∈ ainsert s.pq v (d + w) := he
    rcases mem_ainsert he' with rfl | he2
    · show d ≤ d + w
      omega
    · exact hinv.pqlb e he2
  · intro x c hx hpq hxu
    have hxv : x ≠ v := by
      rintro rfl
      have h2 : alookup (ainsert s.pq x (d + w)) x = none := hpq
      rw [alookup_ainsert_self] at h2
      exact Option.noConfusion h2
    have hx' : alookup s.dist x = some c := by
      have h2 : alookup (ainsert s.dist v (d + w)) x = some c := hx
      rwa [alookup_ainsert_ne _ _ _ _ hxv] at h2
    have hpq' : alookup s.pq x = none := by
      have h2 : alookup (ainsert s.pq v (d + w)) x = none := hpq
      rwa [alookup_ainsert_ne _ _ _ _ hxv] at h2
    exact hinv.finLe x c hx' hpq' hxu
  · intro x c hx hpq hxu vw' hvw'
    have hxv : x ≠ v := by
      rintro rfl
      have h2 : alookup (ainsert s.pq x (d + w)) x = none := hpq
      rw [alookup_ainsert_self] at h2
      exact Option.noConfusion h2
    have hx' : alookup s.dist x = some c := by
      have h2 : alookup (ainsert s.dist v (d + w)) x = some c := hx
      rwa [alookup_ainsert_ne _ _ _ _ hxv] at h2
    have hpq' : alookup s.pq x = none := by
      have h2 : alookup (ainsert s.pq v (d + w)) x = none := hpq
      rwa [alookup_ainsert_ne _ _ _ _ hxv] at h2
    obtain ⟨c', hc', hcle⟩ := hinv.closOld x c hx' hpq' hxu vw' hvw'
    by_cases h2 : vw'.1 = v
    · refine ⟨d + w, ?_, ?_⟩
      · show alookup (ainsert s.dist v (d + w)) vw'.1 = some (d + w)
        rw [h2]
        exact alookup_ainsert_self _ _ _
      · have h3 : alookup s.dist v = some c' := h2 ▸ hc'
        have := hcond c' h3
        omega
    · refine ⟨c', ?_, hcle⟩
      show alookup (ainsert s.dist v (d + w)) vw'.1 = some c'
      rw [alookup_ainsert_ne _ _ _ _ h2]
      exact hc'
  · intro vw' hm
    rcases List.mem_append.mp hm with hm | hm
    · obtain ⟨c', hc', hcle⟩ := hinv.closNew vw' hm
      by_cases h2 : vw'.1 = v
      · refine ⟨d + w, ?_, ?_⟩
        · show alookup (ainsert s.dist v (d + w)) vw'.1 = some (d + w)
          rw [h2]
          exact alookup_ainsert_self _ _ _
        · have h3 : alookup s.dist v = some c' := h2 ▸ hc'
          have := hcond c' h3
          omega
      · refine ⟨c', ?_, hcle⟩
        show alookup (ainsert s.dist v (d + w)) vw'.1 = some c'
        rw [alookup_ainsert_ne _ _ _ _ h2]
        exact hc'
    · simp only [List.mem_singleton] at hm
      subst hm
      refine ⟨d + w, ?_, ?_⟩
      · show alookup (ainsert s.dist v (d + w)) v = some (d + w)
        exact alookup_ainsert_self _ _ _
      · show d + w ≤ d + w
        exact le_refl _
  · intro y x hy
    by_cases hyv : y = v
    · subst hyv
      have hy' : alookup (ainsert s.prev y u) y = some x := hy
      rw [alookup_ainsert_self] at hy'
      have hxu : x = u := (Option.some.inj hy').symm
      subst hxu
      refine ⟨w, d + w, d, hvw, ?_, ?_, le_refl _⟩
      · show alookup (ainsert s.dist y (d + w)) y = some (d + w)
        exact alookup_ainsert_self _ _ _
      · show alookup (ainsert s.dist y (d + w)) x = some d
        rw [alookup_ainsert_ne _ _ _ _ (Ne.symm hvu)]
        exact hinv.udist
    · have hy' : alookup s.prev y = some x := by
        have h2 : alookup (ainsert s.prev v u) y = some x := hy
        rwa [alookup_ainsert_ne _ _ _ _ hyv] at h2
      obtain ⟨w', cy, cx, hmem, hdy, hdx, hle⟩ := hinv.prevE y x hy'
      by_cases hxv : x = v
      · have hlt := hcond cx (hxv ▸ hdx)
        refine ⟨w', cy, d + w, hmem, ?_, ?_, ?_⟩
        · show alookup (ainsert s.dist v (d + w)) y = some cy
          rw [alookup_ainsert_ne _ _ _ _ hyv]
          exact hdy
        · show alookup (ainsert s.dist v (d + w)) x = some (d + w)
          rw [hxv]
          exact alookup_ainsert_self _ _ _
        · omega
      · refine ⟨w', cy, cx, hmem, ?_, ?_, hle⟩
        · show alookup (ainsert s.dist v (d + w)) y = some cy
          rw [alookup_ainsert_ne _ _ _ _ hyv]
          exact hdy
        · show alookup (ainsert s.dist v (d + w)) x = some cx
          rw [alookup_ainsert_ne _ _ _ _ hxv]
          exact hdx
  · intro y c hy hystart
    by_cases hyv : y = v
    · subst hyv
      show (alookup (ainsert s.prev y u) y).isSome
      rw [alookup_ainsert_self]
      rfl
    · have hy' : alookup s.dist y = some c := by
        have h2 : alookup (ainsert s.dist v (d + w)) y = some c := hy
        rwa [alookup_ainsert_ne _ _ _ _ hyv] at h2
      show (alookup (ainsert s.prev v u) y).isSome
      rw [alookup_ainsert_ne _ _ _ _ hyv]
      exact hinv.prevDom y c hy' hystart
  · show alookup (ainsert s.prev v u) start = none
    rw [alookup_ainsert_ne _ _ _ _ (Ne.symm hvstart)]
    exact hinv.prevStart
  · intro y c hy
    by_cases hyv : y = v
    · subst hyv
      exact PrevAcc.step (by rw [alookup_ainsert_self]) hu_new
    · have hy' : alookup s.dist y = some c := by
        have h2 : alookup (ainsert s.dist v (d + w)) y = some c := hy
        rwa [alookup_ainsert_ne _ _ _ _ hyv] at h2
      exact prevAcc_insert_univ hu_new (hinv.chain y c hy')

/-- One relax call preserves the expansion invariant. -/
theorem relax_expInv {nbrs : T → List (T × Int)} {start u : T} {d : Int}
    {processed : List (T × Int)} {s : DijState T} (hw : Nonneg nbrs)
    {vw : T × Int} (hvw : vw ∈ nbrs u) (hinv : ExpInv nbrs start u d processed s) :
    ExpInv nbrs start u d (processed ++ [vw]) (relax u d s vw) := by
  obtain ⟨v, w⟩ := vw
  cases hl : alookup s.dist v with
  | none =>
    rw [relax_none (show alookup s.dist (v, w).1 = none from hl)]
    exact expInv_update hw hvw hinv (fun old ho => by rw [hl] at ho; exact Option.noConfusion ho)
  | some old =>
    by_cases hlt : d + w < old
    · rw [relax_lt (show alookup s.dist (v, w).1 = some old from hl)
        (show d + (v, w).2 < old from hlt)]
      exact expInv_update hw hvw hinv (fun o ho => by
        have h2 : old = o := Option.some.inj (hl.symm.trans ho)
        omega)
    · rw [relax_ge (show alookup s.dist (v, w).1 = some old from hl)
        (show ¬ d + (v, w).2 < old from hlt)]
      refine { hinv with closNew := ?_ }
      intro vw' hm
      rcases List.mem_append.mp hm with hm | hm
      · exact hinv.closNew vw' hm
      · simp only [List.mem_singleton] at hm
        subst hm
        refine ⟨old, hl, ?_⟩
        show old ≤ d + w
        omega

/-- The relax fold over any sublist of the neighbor list preserves the
expansion invariant. -/
theorem expInv_fold {nbrs : T → List (T × Int)} {start u : T} {d : Int}
    (hw : Nonneg nbrs) :
    ∀ (l processed : List (T × Int)) (s : DijState T),
      (∀ vw ∈ l, vw ∈ nbrs u) → ExpInv nbrs start u d processed s →
      ExpInv nbrs start u d (processed ++ l) (l.foldl (relax u d) s) := by
  intro l
  induction l with
  | nil => intro processed s _ hinv; simpa using hinv
  | cons vw tl ih =>
    intro processed s hl hinv
    rw [List.foldl_cons]
    have h1 := relax_expInv hw (hl vw (List.mem_cons_self _ _)) hinv
    have h2 := ih (processed ++ [vw]) (relax u d s vw)
      (fun x hx => hl x (List.mem_cons_of_mem _ hx)) h1
    rw [List.append_assoc] at h2
    simpa using h2

theorem dijInv_init (nbrs : T → List (T × Int)) (start : T) :
    DijInv nbrs start (dijInit start) where
  distNd := by simp [dijInit]
  pqNd := by simp [dijInit]
  pqdist := by
    intro x e hx
    simp only [dijInit, alookup_cons, alookup_nil] at hx ⊢
    exact hx
  start0 := by simp [dijInit]
  paths := by
    intro v c h
    simp only [dijInit, alookup_cons, alookup_nil] at h
    by_cases hv : v = start
    · rw [if_pos hv] at h
      rw [hv, ← Option.some.inj h]
      exact WPath.refl
    · rw [if_neg hv] at h
      exact Option.noConfusion h
  fin := by
    intro v c hd hpq
    exfalso
    simp only [dijInit, alookup_cons, alookup_nil] at hd hpq
    by_cases hv : v = start
    · rw [if_pos hv] at hpq
      exact Option.noConfusion hpq
    · rw [if_neg hv] at hd
      exact Option.noConfusion hd
  clos := by
    intro u c hd hpq
    exfalso
    simp only [dijInit, alookup_cons, alookup_nil] at hd hpq
    by_cases hv : u = start
    · rw [if_pos hv] at hpq
      exact Option.noConfusion hpq
    · rw [if_neg hv] at hd
      exact Option.noConfusion hd
  prevE := by
    intro v u h
    simp [dijInit] at h
  prevDom := by
    intro v c hd hv
    exfalso
    simp only [dijInit, alookup_cons, alookup_nil] at hd
    rw [if_neg hv] at hd
    exact Option.noConfusion hd
  prevStart := by simp [dijInit]
  chain := by
    intro v c hd
    simp only [dijInit, alookup_cons, alookup_nil] at hd
    by_cases hv : v = start
    · rw [hv]
      exact PrevAcc.base
    · rw [if_neg hv] at hd
      exact Option.noConfusion hd

/-- Popping a least entry (u, d) from the queue of an invariant state yields a
state satisfying the expansion invariant with nothing processed yet. -/
theorem dijInv_pop {nbrs : T → List (T × Int)} {start : T} {st : DijState T}
    {u : T} {du : Int} {rest : List (T × Int)}
    (hi : DijInv nbrs start st) (hpm : popMin st.pq = some ((u, du), rest))
    (hl : alookup st.dist u = some du) :
    ExpInv nbrs start u du [] ⟨st.dist, st.prev, rest⟩ := by
  have hmem : (u, du) ∈ st.pq := popMin_mem hpm
  obtain ⟨hrestnd, hrestu⟩ := popMin_keys_nodup hpm hi.pqNd
  have hrlookup := popMin_alookup_ne hpm
  have hrestnone : alookup rest u = none := alookup_eq_none_of_not_mem hrestu
  exact {
    distNd := hi.distNd
    pqNd := hrestnd
    pqdist := by
      intro x e hx
      have hx' : alookup rest x = some e := hx
      by_cases hxu : x = u
      · subst hxu
        rw [hrestnone] at hx'
        exact Option.noConfusion hx'
      · rw [hrlookup x hxu] at hx'
        exact hi.pqdist x e hx'
    start0 := hi.start0
    paths := hi.paths
    udist := hl
    upq := hrestnone
    pqlb := fun e he => popMin_le hpm e (popMin_rest_sub hpm e he)
    finLe := by
      intro x c hx hpq hxu
      have hpq' : alookup st.pq x = none := by
        have h2 : alookup rest x = none := hpq
        rwa [hrlookup x hxu] at h2
      exact hi.fin x c hx hpq' (u, du) hmem
    closOld := by
      intro x c hx hpq hxu vw hvw
      have hpq' : alookup st.pq x = none := by
        have h2 : alookup rest x = none := hpq
        rwa [hrlookup x hxu] at h2
      exact hi.clos x c hx hpq' vw hvw
    closNew := by intro vw hm; simp at hm
    prevE := hi.prevE
    prevDom := hi.prevDom
    prevStart := hi.prevStart
    chain := hi.chain }

theorem dijStep_inv {nbrs : T → List (T × Int)} {start : T} {st st' : DijState T}
    (hw : Nonneg nbrs) (hi : DijInv nbrs start st)
    (h : dijStep nbrs st = StepRes.next st') : DijInv nbrs start st' := by
  obtain ⟨u, d, du, rest, hpm, hl, hcase⟩ := dijStep_next nbrs h
  have hmem : (u, d) ∈ st.pq := popMin_mem hpm
  have hpqu : alookup st.pq u = some d := alookup_eq_of_mem_nodup hi.pqNd hmem
  have hdu : du = d := Option.some.inj (hl.symm.trans (hi.pqdist u d hpqu))
  subst hdu
  rcases hcase with ⟨hlt, rfl⟩ | ⟨hge, rfl⟩
  · exact absurd hlt (lt_irrefl du)
  · have hs0 : ExpInv nbrs start u du [] ⟨st.dist, st.prev, rest⟩ := dijInv_pop hi hpm hl
    have hfold := expInv_fold hw (nbrs u) [] ⟨st.dist, st.prev, rest⟩
      (fun vw hvw => hvw) hs0
    rw [List.nil_append] at hfold
    refine {
      distNd := hfold.distNd
      pqNd := hfold.pqNd
      pqdist := hfold.pqdist
      start0 := hfold.start0
      paths := hfold.paths
      fin := ?_
      clos := ?_
      prevE := hfold.prevE
      prevDom := hfold.prevDom
      prevStart := hfold.prevStart
      chain := hfold.chain }
    · intro v c hv hpq e he
      by_cases hvu : v = u
      · subst hvu
        have hc : c = du := Option.some.inj (hv.symm.trans hfold.udist)
        subst hc
        exact hfold.pqlb e he
      · have := hfold.finLe v c hv hpq hvu
        have := hfold.pqlb e he
        omega
    · intro x c hx hpq vw hvw
      by_cases hxu : x = u
      · subst hxu
        have hc : c = du := Option.some.inj (hx.symm.trans hfold.udist)
        subst hc
        exact hfold.closNew vw hvw
      · exact hfold.closOld x c hx hpq hxu vw hvw

theorem dijRun_ok {nbrs : T → List (T × Int)} {start : T} (hw : Nonneg nbrs) :
    ∀ (fuel : Nat) (st : DijState T), DijInv nbrs start st →
      ∀ {dist : List (T × Int)} {prev : List (T × T)},
      dijRun nbrs fuel st = Res.ok (dist, prev) →
      ∃ stf : DijState T, DijInv nbrs start stf ∧ stf.dist = dist ∧ stf.prev = prev ∧
        stf.pq = [] := by
  intro fuel
  induction fuel with
  | zero => intro st _ dist prev h; exact Res.noConfusion h
  | succ n ih =>
    intro st hi dist prev h
    unfold dijRun at h
    cases hs : dijStep nbrs st with
    | done =>
      rw [hs] at h
      have hpair := Res.ok.inj h
      refine ⟨st, hi, congrArg Prod.fst hpair, congrArg Prod.snd hpair, ?_⟩
      cases hpm : popMin st.pq with
      | none => exact popMin_eq_none_iff.mp hpm
      | some p =>
        obtain ⟨⟨u, d⟩, rest⟩ := p
        exfalso
        cases hl : alookup st.dist u with
        | none =>
          rw [dijStep_missing nbrs hpm hl] at hs
          exact StepRes.noConfusion hs
        | some du =>
          by_cases hlt : du < d
          · rw [dijStep_stale nbrs hpm hl hlt] at hs
            exact StepRes.noConfusion hs
          · rw [dijStep_expand nbrs hpm hl hlt] at hs
            exact StepRes.noConfusion hs
    | panic =>
      rw [hs] at h
      exact Res.noConfusion h
    | next st' =>
      rw [hs] at h
      exact ih st' (dijStep_inv hw hi hs) h

/-- One relax call leaves the dijkstra measure unchanged. -/
theorem relax_measure [Fintype T] {nbrs : T → List (T × Int)} {start u : T} {d : Int}
    {processed : List (T × Int)} {s : DijState T} (hw : Nonneg nbrs)
    {vw : T × Int} (hvw : vw ∈ nbrs u) (hinv : ExpInv nbrs start u d processed s) :
    dijMeasure (relax u d s vw) = dijMeasure s := by
  obtain ⟨v, w⟩ := vw
  have hw0 : 0 ≤ w := hw u (v, w) hvw
  cases hl : alookup s.dist v with
  | none =>
    rw [relax_none (show alookup s.dist (v, w).1 = none from hl)]
    have hvnot : v ∉ keysF s.dist := by
      rw [mem_keysF_iff, hl]
      simp
    have hpqnone : alookup s.pq v = none := by
      cases hpq : alookup s.pq v with
      | none => rfl
      | some e =>
        have h2 := hinv.pqdist v e hpq
        rw [hl] at h2
        exact Option.noConfusion h2
    have hpqnot : v ∉ s.pq.map Prod.fst := by
      intro hc
      rw [← alookup_isSome_iff, hpqnone] at hc
      simp at hc
    have hpq_len : (ainsert s.pq v (d + w)).length = s.pq.length + 1 :=
      ainsert_length_not_mem _ hpqnot
    have hvmem : v ∈ Finset.univ \ keysF s.dist := by
      rw [Finset.mem_sdiff]
      exact ⟨Finset.mem_univ _, hvnot⟩
    have hset : Finset.univ \ insert v (keysF s.dist) =
        (Finset.univ \ keysF s.dist).erase v := by
      ext x
      simp only [Finset.mem_sdiff, Finset.mem_erase, Finset.mem_univ, true_and,
        Finset.mem_insert]
      tauto
    have hcard := Finset.card_erase_add_one hvmem
    show (ainsert s.pq v (d + w)).length +
        (Finset.univ \ keysF (ainsert s.dist v (d + w))).card =
      s.pq.length + (Finset.univ \ keysF s.dist).card
    rw [hpq_len, keysF_ainsert, hset]
    omega
  | some old =>
    by_cases hlt : d + w < old
    · rw [relax_lt (show alookup s.dist (v, w).1 = some old from hl)
        (show d + (v, w).2 < old from hlt)]
      have hvu : v ≠ u := by
        rintro rfl
        have h2 : old = d := Option.some.inj (hl.symm.trans hinv.udist)
        omega
      have hpqsome : v ∈ s.pq.map Prod.fst := by
        by_contra hc
        have hnone : alookup s.pq v = none := alookup_eq_none_of_not_mem hc
        have := hinv.finLe v old hl hnone hvu
        omega
      have hpq_len : (ainsert s.pq v (d + w)).length = s.pq.length :=
        ainsert_length_mem _ hpqsome
      have hvin : v ∈ keysF s.dist := by
        rw [mem_keysF_iff, hl]
        rfl
      have hkeys : keysF (ainsert s.dist v (d + w)) = keysF s.dist := by
        rw [keysF_ainsert, Finset.insert_eq_self.mpr hvin]
      show (ainsert s.pq v (d + w)).length +
          (Finset.univ \ keysF (ainsert s.dist v (d + w))).card =
        s.pq.length + (Finset.univ \ keysF s.dist).card
      rw [hpq_len, hkeys]
    · rw [relax_ge (show alookup s.dist (v, w).1 = some old from hl)
        (show ¬ d + (v, w).2 < old from hlt)]

/-- The relax fold leaves the dijkstra measure unchanged. -/
theorem relaxFold_measure [Fintype T] {nbrs : T → List (T × Int)} {start u : T}
    {d : Int} (hw : Nonneg nbrs) :
    ∀ (l processed : List (T × Int)) (s : DijState T), (∀ vw ∈ l, vw ∈ nbrs u) →
      ExpInv nbrs start u d processed s →
      dijMeasure (l.foldl (relax u d) s) = dijMeasure s := by
  intro l
  induction l with
  | nil => intro _ s _ _; simp
  | cons vw tl ih =>
    intro processed s hl hinv
    rw [List.foldl_cons]
    have h1 := relax_measure hw (hl vw (List.mem_cons_self _ _)) hinv
    have h2 := relax_expInv hw (hl vw (List.mem_cons_self _ _)) hinv
    rw [ih (processed ++ [vw]) _ (fun x hx => hl x (List.mem_cons_of_mem _ hx)) h2, h1]

/-- One dijkstra iteration decreases the dijkstra measure by exactly one. -/
theorem dijStep_measure [Fintype T] {nbrs : T → List (T × Int)} {start : T}
    {st st' : DijState T} (hw : Nonneg nbrs) (hi : DijInv nbrs start st)
    (h : dijStep nbrs st = StepRes.next st') : dijMeasure st = dijMeasure st' + 1 := by
  obtain ⟨u, d, du, rest, hpm, hl, hcase⟩ := dijStep_next nbrs h
  have hmem := popMin_mem hpm
  have hpqu : alookup st.pq u = some d := alookup_eq_of_mem_nodup hi.pqNd hmem
  have hdu : du = d := Option.some.inj (hl.symm.trans (hi.pqdist u d hpqu))
  subst hdu
  rcases hcase with ⟨hlt, rfl⟩ | ⟨hge, rfl⟩
  · exact absurd hlt (lt_irrefl du)
  · have hs0 := dijInv_pop hi hpm hl
    have hfold := relaxFold_measure hw (nbrs u) [] ⟨st.dist, st.prev, rest⟩
      (fun vw hvw => hvw) hs0
    rw [hfold]
    have hlen := popMin_length hpm
    show st.pq.length + (Finset.univ \ keysF st.dist).card =
      (rest.length + (Finset.univ \ keysF st.dist).card) + 1
    omega

/-- On a finite node type with non-negative costs, dijkstra terminates within
measure-many iterations. -/
theorem dijRun_term [Fintype T] {start : T} (nbrs : T → List (T × Int))
    (hw : Nonneg nbrs) :
    ∀ (n : Nat) (st : DijState T), DijInv nbrs start st → dijMeasure st ≤ n →
      ∃ res, dijRun nbrs (n + 1) st = Res.ok res := by
  intro n
  induction n with
  | zero =>
    intro st hi hm
    have hq : st.pq = [] := by
      rw [← List.length_eq_zero]
      unfold dijMeasure at hm
      omega
    refine ⟨(st.dist, st.prev), ?_⟩
    unfold dijRun
    rw [dijStep_done nbrs (popMin_eq_none_iff.mpr hq)]
  | succ k ih =>
    intro st hi hm
    cases hpm : popMin st.pq with
    | none =>
      refine ⟨(st.dist, st.prev), ?_⟩
      unfold dijRun
      rw [dijStep_done nbrs hpm]
    | some p =>
      obtain ⟨⟨u, d⟩, rest⟩ := p
      have hmem := popMin_mem hpm
      have hpqu : alookup st.pq u = some d := alookup_eq_of_mem_nodup hi.pqNd hmem
      have hl : alookup st.dist u = some d := hi.pqdist u d hpqu
      have hs : dijStep nbrs st =
          StepRes.next ((nbrs u).foldl (relax u d) ⟨st.dist, st.prev, rest⟩) :=
        dijStep_expand nbrs hpm hl (lt_irrefl d)
      have hmu := dijStep_measure hw hi hs
      obtain ⟨res, hr⟩ := ih _ (dijStep_inv hw hi hs) (by omega)
      refine ⟨res, ?_⟩
      show dijRun nbrs (k + 1 + 1) st = _
      unfold dijRun
      rw [hs]
      exact hr

/-- At termination every weighted path bounds the recorded distance and forces
presence of an entry. -/
theorem dij_final_min {nbrs : T → List (T × Int)} {start : T} {stf : DijState T}
    (hi : DijInv nbrs start stf) (hq : stf.pq = []) :
    ∀ v c, WPath nbrs start v c → ∃ cv, alookup stf.dist v = some cv ∧ cv ≤ c := by
  intro v c hp
  induction hp with
  | refl => exact ⟨0, hi.start0, le_refl 0⟩
  | @step y v' w c' hp' hmem ih =>
    obtain ⟨cu, hcu, hle⟩ := ih
    obtain ⟨cv, hcv, hcvle⟩ := hi.clos y cu hcu (by rw [hq]; rfl) (v', w) hmem
    exact ⟨cv, hcv, by omega⟩

/-- At termination the predecessor chain of every recorded node reaches start
through real edges whose costs sum to the recorded distance. -/
theorem dij_final_prevSum {nbrs : T → List (T × Int)} {start : T} {stf : DijState T}
    (hi : DijInv nbrs start stf) (hq : stf.pq = []) :
    ∀ v c, alookup stf.dist v = some c → PrevSum stf.prev nbrs start v c := by
  have haux : ∀ v, PrevAcc stf.prev start v →
      ∀ c, alookup stf.dist v = some c → PrevSum stf.prev nbrs start v c := by
    intro v hacc
    induction hacc with
    | base =>
      intro c hc
      have hc0 : c = 0 := Option.some.inj (hc.symm.trans hi.start0)
      subst hc0
      exact PrevSum.refl
    | @step a b hlk hac ih =>
      intro c hc
      obtain ⟨w, ca, cb, hmem, hda, hdb, hle⟩ := hi.prevE a b hlk
      have hca : ca = c := Option.some.inj (hda.symm.trans hc)
      obtain ⟨c2, hc2, hc2le⟩ := hi.clos b cb hdb (by rw [hq]; rfl) (a, w) hmem
      have hc2a : c2 = ca := Option.some.inj (hc2.symm.trans hda)
      have heq : c = cb + w := by omega
      rw [heq]
      exact PrevSum.step (ih cb hdb) hlk hmem
  intro v c hv
  exact haux v (hi.chain v c hv) c hv

/-! Depth-first search: invariant preservation and correctness. -/

theorem dfsInv_init (nbrs : T → List T) (start : T) : DfsInv nbrs start (dfsInit start) where
  visR := by intro x hx; simp [dfsInit] at hx
  stkR := by
    intro x hx
    simp only [dfsInit, List.mem_singleton] at hx
    exact ⟨0, hx ▸ NPath.refl⟩
  ordNd := by simp [dfsInit]
  ordVis := by simp [dfsInit]
  clos := by intro x hx; simp [dfsInit] at hx
  first := Or.inl ⟨rfl, rfl, rfl⟩

theorem dfsStep_inv {nbrs : T → List T} {start : T} {st st' : DfsState T}
    (hi : DfsInv nbrs start st) (h : dfsStep nbrs st = StepRes.next st') :
    DfsInv nbrs start st' := by
  obtain ⟨cur, rest, hq, hcase⟩ := dfsStep_next nbrs h
  rcases hcase with ⟨hv, rfl⟩ | ⟨hv, rfl⟩
  · refine {
      visR := hi.visR
      stkR := fun x hx => hi.stkR x (hq ▸ List.mem_cons_of_mem _ hx)
      ordNd := hi.ordNd
      ordVis := hi.ordVis
      clos := ?_
      first := ?_ }
    · intro x hx nb hnb
      rcases hi.clos x hx nb hnb with h1 | h1
      · exact Or.inl h1
      · rw [hq] at h1
        rcases List.mem_cons.mp h1 with rfl | h1
        · exact Or.inl hv
        · exact Or.inr h1
    · rcases hi.first with ⟨h1, _, _⟩ | h1
      · exact absurd hv (by rw [h1]; simp)
      · exact Or.inr h1
  · have hcurR : ∃ n, NPath nbrs start cur n := hi.stkR cur (hq ▸ List.mem_cons_self _ _)
    have hcurNotOrd : cur ∉ st.order := fun hc => hv ((hi.ordVis cur).mp hc)
    refine {
      visR := ?_
      stkR := ?_
      ordNd := ?_
      ordVis := ?_
      clos := ?_
      first := ?_ }
    · intro x hx
      rcases List.mem_cons.mp hx with rfl | hx
      · exact hcurR
      · exact hi.visR x hx
    · intro x hx
      rcases (mem_dfsPushes _ _ _ x).mp hx with hx | ⟨hx, _⟩
      · exact hi.stkR x (hq ▸ List.mem_cons_of_mem _ hx)
      · obtain ⟨n, hn⟩ := hcurR
        exact ⟨n + 1, NPath.step hn hx⟩
    · rw [List.nodup_append]
      exact ⟨hi.ordNd, by simp, by
        intro a ha hb
        simp only [List.mem_singleton] at hb
        subst hb
        exact hcurNotOrd ha⟩
    · intro x
      constructor
      · intro hx
        rcases List.mem_append.mp hx with hx | hx
        · exact List.mem_cons_of_mem _ ((hi.ordVis x).mp hx)
        · simp only [List.mem_singleton] at hx
          subst hx
          exact List.mem_cons_self _ _
      · intro hx
        rcases List.mem_cons.mp hx with rfl | hx
        · exact List.mem_append_right _ (by simp)
        · exact List.mem_append_left _ ((hi.ordVis x).mpr hx)
    · intro x hx nb hnb
      rcases List.mem_cons.mp hx with rfl | hx
      · by_cases hnbv : nb ∈ x :: st.visited
        · exact Or.inl hnbv
        · exact Or.inr ((mem_dfsPushes _ _ _ nb).mpr (Or.inr ⟨hnb, hnbv⟩))
      · rcases hi.clos x hx nb hnb with h1 | h1
        · exact Or.inl (List.mem_cons_of_mem _ h1)
        · rw [hq] at h1
          rcases List.mem_cons.mp h1 with rfl | h1
          · exact Or.inl (List.mem_cons_self _ _)
          · exact Or.inr ((mem_dfsPushes _ _ _ nb).mpr (Or.inl h1))
    · rcases hi.first with ⟨h1, h2, h3⟩ | ⟨h1, h2⟩
      · obtain ⟨rfl, -⟩ := List.cons.inj (hq.symm.trans h3)
        refine Or.inr ⟨?_, List.mem_cons_self _ _⟩
        rw [h2]
        rfl
      · refine Or.inr ⟨?_, List.mem_cons_of_mem _ h2⟩
        cases hord : st.order with
        | nil => rw [hord] at h1; exact Option.noConfusion h1
        | cons a t =>
          rw [hord] at h1
          simpa using h1

theorem dfsRun_ok {nbrs : T → List T} {start : T} :
    ∀ (fuel : Nat) (st : DfsState T), DfsInv nbrs start st →
      ∀ {order : List T}, dfsRun nbrs fuel st = Res.ok order →
      ∃ stf : DfsState T, DfsInv nbrs start stf ∧ stf.order = order ∧ stf.stack = [] := by
  intro fuel
  induction fuel with
  | zero => intro st _ order h; exact Res.noConfusion h
  | succ n ih =>
    intro st hi order h
    unfold dfsRun at h
    cases hs : dfsStep nbrs st with
    | done =>
      rw [hs] at h
      refine ⟨st, hi, Res.ok.inj h, ?_⟩
      cases hq : st.stack with
      | nil => rfl
      | cons cur rest =>
        by_cases hv : cur ∈ st.visited
        · rw [dfsStep_skip nbrs hq hv] at hs
          exact StepRes.noConfusion hs
        · rw [dfsStep_expand nbrs hq hv] at hs
          exact StepRes.noConfusion hs
    | panic =>
      rw [hs] at h
      exact Res.noConfusion h
    | next st' =>
      rw [hs] at h
      exact ih st' (dfsStep_inv hi hs) h

/-- At termination the visited set is closed under neighbors, hence contains
every reachable node. -/
theorem dfs_final {nbrs : T → List T} {start : T} {stf : DfsState T}
    (hi : DfsInv nbrs start stf) (hq : stf.stack = []) :
    ∀ v c, NPath nbrs start v c → v ∈ stf.visited := by
  have hstart : start ∈ stf.visited := by
    rcases hi.first with ⟨-, -, h3⟩ | ⟨-, h2⟩
    · rw [h3] at hq
      exact absurd hq (by simp)
    · exact h2
  intro v c hp
  induction hp with
  | refl => exact hstart
  | step hp' hmem ih =>
    rcases hi.clos _ ih _ hmem with h1 | h1
    · exact h1
    · rw [hq] at h1
      exact absurd h1 (by simp)

/-- One dfs iteration strictly decreases the dfs measure. -/
theorem dfsStep_measure [Fintype T] {nbrs : T → List T} {st st' : DfsState T}
    (h : dfsStep nbrs st = StepRes.next st') : dfsMeasure nbrs st' < dfsMeasure nbrs st := by
  obtain ⟨cur, rest, hq, hcase⟩ := dfsStep_next nbrs h
  rcases hcase with ⟨hv, rfl⟩ | ⟨hv, rfl⟩
  · unfold dfsMeasure
    simp only [hq, List.length_cons]
    omega
  · have hcur_not : cur ∉ st.visited.toFinset := by
      rw [List.mem_toFinset]
      exact hv
    have hcur_mem : cur ∈ Finset.univ \ st.visited.toFinset := by
      rw [Finset.mem_sdiff]
      exact ⟨Finset.mem_univ _, hcur_not⟩
    have hins : (cur :: st.visited).toFinset = insert cur st.visited.toFinset := by simp
    have hset : Finset.univ \ insert cur st.visited.toFinset =
        (Finset.univ \ st.visited.toFinset).erase cur := by
      ext x
      simp only [Finset.mem_sdiff, Finset.mem_erase, Finset.mem_univ, true_and,
        Finset.mem_insert]
      tauto
    have hsum : ((Finset.univ \ st.visited.toFinset).erase cur).sum
          (fun t => 1 + (nbrs t).length) + (1 + (nbrs cur).length) =
        (Finset.univ \ st.visited.toFinset).sum (fun t => 1 + (nbrs t).length) :=
      Finset.sum_erase_add _ _ hcur_mem
    have hstk : (dfsPushes (cur :: st.visited) (nbrs cur) rest).length ≤
        (nbrs cur).length + rest.length := by
      rw [dfsPushes_eq]
      simp only [List.length_append, List.length_reverse]
      exact Nat.add_le_add_right (List.length_filter_le _ _) _
    unfold dfsMeasure
    simp only [hq, List.length_cons, hins, hset]
    omega

/-- On a finite node type, dfs terminates within measure-many iterations. -/
theorem dfsRun_term [Fintype T] (nbrs : T → List T) :
    ∀ (n : Nat) (st : DfsState T), dfsMeasure nbrs st ≤ n →
      ∃ order, dfsRun nbrs (n + 1) st = Res.ok order := by
  intro n
  induction n with
  | zero =>
    intro st hm
    have hq : st.stack = [] := by
      rw [← List.length_eq_zero]
      unfold dfsMeasure at hm
      omega
    refine ⟨st.order, ?_⟩
    unfold dfsRun
    rw [dfsStep_nil nbrs hq]
  | succ k ih =>
    intro st hm
    cases hq : st.stack with
    | nil =>
      refine ⟨st.order, ?_⟩
      unfold dfsRun
      rw [dfsStep_nil nbrs hq]
    | cons cur rest =>
      have hs : ∃ st', dfsStep nbrs st = StepRes.next st' := by
        by_cases hv : cur ∈ st.visited
        · exact ⟨_, dfsStep_skip nbrs hq hv⟩
        · exact ⟨_, dfsStep_expand nbrs hq hv⟩
      obtain ⟨st', hs⟩ := hs
      have hmu := dfsStep_measure hs
      obtain ⟨order, ho⟩ := ih st' (by omega)
      refine ⟨order, ?_⟩
      show dfsRun nbrs (k + 1 + 1) st = _
      unfold dfsRun
      rw [hs]
      exact ho

/-- C6: dfs returns a duplicate-free sequence covering exactly the nodes
reachable from start, in first-expansion order, beginning with start. -/
theorem claim_C6 {T : Type} [DecidableEq T] (start : T) (nbrs : T → List T)
    (fuel : Nat) (order : List T) (h : dfs start nbrs fuel = Res.ok order) :
    order.Nodup ∧ (∀ v, v ∈ order ↔ ∃ n, NPath nbrs start v n) ∧
    order.head? = some start ∧
    (∀ (_ : Fintype T), ∃ (f : Nat) (ord : List T), dfs start nbrs f = Res.ok ord) := by
  obtain ⟨stf, hi, hord, hqe⟩ := dfsRun_ok fuel (dfsInit start) (dfsInv_init nbrs start) h
  subst hord
  refine ⟨hi.ordNd, ?_, ?_, ?_⟩
  · intro v
    constructor
    · intro hv
      exact hi.visR v ((hi.ordVis v).mp hv)
    · rintro ⟨n, hn⟩
      exact (hi.ordVis v).mpr (dfs_final hi hqe v n hn)
  · rcases hi.first with ⟨-, -, h3⟩ | ⟨h1, -⟩
    · rw [h3] at hqe
      exact absurd hqe (by simp)
    · exact h1
  · intro hfin
    obtain ⟨ord, ho⟩ :=
      dfsRun_term nbrs (dfsMeasure nbrs (dfsInit start)) (dfsInit start) (le_refl _)
    exact ⟨dfsMeasure nbrs (dfsInit start) + 1, ord, ho⟩

/-- Witness for C6 on the DFS example graph. -/
theorem claim_C6_witness : ([V4.A, V4.C, V4.D, V4.B] : List V4).Nodup :=
  (claim_C6 V4.A dfsG 20 [V4.A, V4.C, V4.D, V4.B] (by decide)).1

/-- C4: bfs maps exactly the reachable nodes, each to its minimum edge-count
distance, with distance 0 at the start; an isolated start yields exactly the
single-entry map containing start at 0. -/
theorem claim_C4 {T : Type} [DecidableEq T] (start : T) (nbrs : T → List T)
    (fuel : Nat) (dist : List (T × Nat)) (h : bfs start nbrs fuel = Res.ok dist) :
    alookup dist start = some 0 ∧
    (∀ v n, alookup dist v = some n →
      NPath nbrs start v n ∧ ∀ c, NPath nbrs start v c → n ≤ c) ∧
    (∀ v c, NPath nbrs start v c → (alookup dist v).isSome) ∧
    (∀ v, (alookup dist v).isSome → ∃ n, NPath nbrs start v n) ∧
    (∀ (s : T) (f : Nat), nbrs s = [] → 2 ≤ f → bfs s nbrs f = Res.ok [(s, 0)]) ∧
    (∀ (_ : Fintype T), ∃ (f : Nat) (d : List (T × Nat)), bfs start nbrs f = Res.ok d) := by
  obtain ⟨stf, hi, hdist, hqe⟩ := bfsRun_ok fuel (bfsInit start) (bfsInv_init nbrs start) h
  subst hdist
  refine ⟨hi.start0, ?_, ?_, ?_, ?_, ?_⟩
  · intro v n hv
    refine ⟨hi.paths v n hv, ?_⟩
    intro c hc
    obtain ⟨k, hk, hkle⟩ := bfs_final_min hi hqe v c hc
    rw [Option.some.inj (hv.symm.trans hk)]
    exact hkle
  · intro v c hc
    obtain ⟨k, hk, _⟩ := bfs_final_min hi hqe v c hc
    exact Option.isSome_iff_exists.mpr ⟨k, hk⟩
  · intro v hv
    obtain ⟨n, hn⟩ := Option.isSome_iff_exists.mp hv
    exact ⟨n, hi.paths v n hn⟩
  · intro s f hiso hf
    obtain ⟨k, rfl⟩ : ∃ k, f = k + 2 := ⟨f - 2, by omega⟩
    have h1 : bfsStep nbrs (bfsInit s) = StepRes.next ⟨[(s, 0)], []⟩ := by
      rw [bfsStep_cons nbrs (show (bfsInit s).q = s :: [] from rfl)
        (show alookup (bfsInit s).dist s = some 0 from by simp [bfsInit])]
      rw [hiso]
      rfl
    have h2 : bfsStep nbrs (⟨[(s, 0)], []⟩ : BfsState T) = StepRes.done :=
      bfsStep_nil nbrs rfl
    show bfsRun nbrs (k + 2) (bfsInit s) = Res.ok [(s, 0)]
    rw [show k + 2 = (k + 1) + 1 from rfl]
    unfold bfsRun
    rw [h1]
    unfold bfsRun
    rw [h2]
  · intro hfin
    have hcov : BfsQCov (bfsInit start) := by
      intro x hx
      simp only [bfsInit, List.mem_singleton] at hx
      simp [bfsInit, hx]
    obtain ⟨d, hd⟩ :=
      bfsRun_term nbrs (bfsMeasure (bfsInit start)) (bfsInit start) hcov (le_refl _)
    exact ⟨bfsMeasure (bfsInit start) + 1, d, hd⟩

/-- Witness for C4 on the line graph A - B - C - D from the repository's bfs
test. -/
theorem claim_C4_witness :
    alookup [(V4.A, 0), (V4.B, 1), (V4.C, 2), (V4.D, 3)] V4.A = some 0 :=
  (claim_C4 V4.A lineG 20 [(V4.A, 0), (V4.B, 1), (V4.C, 2), (V4.D, 3)] (by decide)).1

theorem steps_pres {σ : Type} {f : σ → StepRes σ} {P : σ → Prop}
    (hstep : ∀ a b, P a → f a = StepRes.next b → P b) :
    ∀ {x y : σ}, Steps f x y → P x → P y := by
  intro x y h
  induction h with
  | refl => exact id
  | tail hab hbc ih => exact fun hx => hstep _ _ (ih hx) hbc

theorem steps_dijInv {nbrs : T → List (T × Int)} {start : T} {st : DijState T}
    (hw : Nonneg nbrs) (h : Steps (dijStep nbrs) (dijInit start) st) :
    DijInv nbrs start st :=
  steps_pres (fun _ _ ha hb => dijStep_inv hw ha hb) h (dijInv_init nbrs start)

/-- Following the predecessor entries of a rooted node with the fuelled
reconstruction loop succeeds and yields the chain to start. -/
theorem reconstruct_of_prevAcc {prev : List (T × T)} {start : T}
    (hstart : alookup prev start = none) :
    ∀ {v : T}, PrevAcc prev start v →
    ∃ n l, (∀ acc, reconstructGo prev n v acc = some (l ++ acc)) ∧
      (l ++ [v]).head? = some start ∧
      List.Chain' (fun p q => alookup prev q = some p) (l ++ [v]) := by
  intro v hacc
  induction hacc with
  | base =>
    refine ⟨1, [], ?_, by simp, by simp⟩
    intro acc
    simp [reconstructGo, hstart]
  | @step a b hlk hac ih =>
    obtain ⟨n, l, hgo, hhead, hchain⟩ := ih
    refine ⟨n + 1, l ++ [b], ?_, ?_, ?_⟩
    · intro acc
      rw [show reconstructGo prev (n + 1) a acc = reconstructGo prev n b (b :: acc) from by
        simp [reconstructGo, hlk]]
      rw [hgo (b :: acc)]
      simp
    · cases l with
      | nil => simpa using hhead
      | cons x t => simpa using hhead
    · rw [List.chain'_append]
      refine ⟨hchain, List.chain'_singleton _, ?_⟩
      intro x hx y hy
      rw [List.getLast?_concat] at hx
      simp only [Option.mem_def, List.head?_cons, Option.some.injEq] at hx hy
      subst hx
      subst hy
      exact hlk

/-- C1: for terminating runs with non-negative edge costs, dijkstra's distance
map records exactly the reachable nodes, each at its true minimum accumulated
path cost (0 at the start), and following predecessors from any recorded node
reaches start through real edges whose costs sum to the recorded distance. -/
theorem claim_C1 {T : Type} [DecidableEq T] (start : T) (nbrs : T → List (T × Int))
    (hw : Nonneg nbrs) (fuel : Nat) (dist : List (T × Int)) (prev : List (T × T))
    (h : dijkstra start nbrs fuel = Res.ok (dist, prev)) :
    alookup dist start = some 0 ∧
    (∀ v c, alookup dist v = some c →
      WPath nbrs start v c ∧ ∀ c', WPath nbrs start v c' → c ≤ c') ∧
    (∀ v c, WPath nbrs start v c → (alookup dist v).isSome) ∧
    (∀ v c, alookup dist v = some c → PrevSum prev nbrs start v c) ∧
    (∀ (_ : Fintype T), ∃ (f : Nat) (res : List (T × Int) × List (T × T)),
      dijkstra start nbrs f = Res.ok res) := by
  obtain ⟨stf, hi, hd, hp, hq⟩ :=
    dijRun_ok hw fuel (dijInit start) (dijInv_init nbrs start) h
  subst hd hp
  refine ⟨hi.start0, ?_, ?_, dij_final_prevSum hi hq, ?_⟩
  · intro v c hv
    refine ⟨hi.paths v c hv, ?_⟩
    intro c' hc'
    obtain ⟨cv, hcv, hle⟩ := dij_final_min hi hq v c' hc'
    rw [Option.some.inj (hv.symm.trans hcv)]
    exact hle
  · intro v c hc
    obtain ⟨cv, hcv, _⟩ := dij_final_min hi hq v c hc
    exact Option.isSome_iff_exists.mpr ⟨cv, hcv⟩
  · intro hfin
    obtain ⟨res, hr⟩ := dijRun_term nbrs hw (dijMeasure (dijInit start)) (dijInit start)
      (dijInv_init nbrs start) (le_refl _)
    exact ⟨dijMeasure (dijInit start) + 1, res, hr⟩

/-- Witness for C1 on the weighted test graph (A at 0, B at 1, C at 5, D at 3
through B). -/
theorem claim_C1_witness :
    alookup [(V4.A, (0 : Int)), (V4.B, 1), (V4.C, 5), (V4.D, 3)] V4.A = some 0 :=
  (claim_C1 V4.A dijG
    (by show ∀ u, ∀ vw ∈ dijG u, 0 ≤ (vw : V4 × Int).2; decide) 20
    [(V4.A, 0), (V4.B, 1), (V4.C, 5), (V4.D, 3)]
    [(V4.B, V4.A), (V4.C, V4.A), (V4.D, V4.B)] (by decide)).1

/-- C5: distance entries are monotone: a bfs iteration never changes an
existing entry; a dijkstra iteration only rewrites an entry to an equal or
strictly smaller value; and, with non-negative costs, an entry of a finalized
node (present in dist, absent from the queue) is never revised. -/
theorem claim_C5 {T : Type} [DecidableEq T] (start : T) (nbrs1 : T → List T)
    (nbrsW : T → List (T × Int)) :
    (∀ (st st' : BfsState T), bfsStep nbrs1 st = StepRes.next st' →
      ∀ v n, alookup st.dist v = some n → alookup st'.dist v = some n) ∧
    (∀ (st st' : DijState T), dijStep nbrsW st = StepRes.next st' →
      ∀ v c c', alookup st.dist v = some c → alookup st'.dist v = some c' →
      c' = c ∨ c' < c) ∧
    (Nonneg nbrsW → ∀ (st st' : DijState T),
      Steps (dijStep nbrsW) (dijInit start) st → dijStep nbrsW st = StepRes.next st' →
      ∀ v c, alookup st.dist v = some c → alookup st.pq v = none →
      alookup st'.dist v = some c) := by
  refine ⟨?_, ?_, ?_⟩
  · intro st st' h v n hv
    obtain ⟨cur, rest, d, hq, hl, rfl⟩ := bfsStep_next nbrs1 h
    exact (bfsFold_spec nbrs1 d (nbrs1 cur) ⟨st.dist, rest⟩).old v n hv
  · intro st st' h v c c' hv hv'
    obtain ⟨u, d, du, rest, hpm, hl, hcase⟩ := dijStep_next nbrsW h
    rcases hcase with ⟨hlt, rfl⟩ | ⟨hge, rfl⟩
    · exact Or.inl (Option.some.inj
        ((show alookup st.dist v = some c' from hv').symm.trans hv))
    · obtain ⟨c2, hc2, hle⟩ := relaxFold_dist_le (nbrsW u) ⟨st.dist, st.prev, rest⟩ hv
      have hcc : c' = c2 := Option.some.inj (hv'.symm.trans hc2)
      rw [hcc]
      rcases lt_or_eq_of_le hle with h1 | h1
      · exact Or.inr h1
      · exact Or.inl h1
  · intro hw st st' hsteps h v c hv hpq
    have hi := steps_dijInv hw hsteps
    obtain ⟨u, d, du, rest, hpm, hl, hcase⟩ := dijStep_next nbrsW h
    have hmem : (u, d) ∈ st.pq := popMin_mem hpm
    rcases hcase with ⟨hlt, rfl⟩ | ⟨hge, rfl⟩
    · exact hv
    · have hcd : c ≤ d := hi.fin v c hv hpq (u, d) hmem
      exact relaxFold_keeps (nbrsW u) ⟨st.dist, st.prev, rest⟩
        (fun vw hvw => hw u vw hvw) hv hcd

/-- Witness for C5: the first bfs iteration on the line graph extends the map
without touching the entry of A. -/
theorem claim_C5_witness :
    alookup [(V4.A, 0), (V4.B, 1)] V4.A = some 0 :=
  (claim_C5 V4.A lineG dijG).1 ⟨[(V4.A, 0)], [V4.A]⟩ ⟨[(V4.A, 0), (V4.B, 1)], [V4.B]⟩
    (by decide) V4.A 0 (by decide)

/-- C9: for a predecessor map produced by a terminating dijkstra run with
non-negative costs, reconstruction on any recorded node yields a sequence
from start to that node whose consecutive pairs are exactly predecessor
entries; a target absent from the map yields the singleton sequence. -/
theorem claim_C9 {T : Type} [DecidableEq T] (start : T) (nbrs : T → List (T × Int))
    (hw : Nonneg nbrs) (fuel : Nat) (dist : List (T × Int)) (prev : List (T × T))
    (h : dijkstra start nbrs fuel = Res.ok (dist, prev)) :
    (∀ v c, alookup dist v = some c → ∃ n l, reconstruct_path prev n v = some l ∧
      l.head? = some start ∧ l.getLast? = some v ∧
      List.Chain' (fun p q => alookup prev q = some p) l) ∧
    (∀ (m : List (T × T)) (t : T) (f : Nat), alookup m t = none → 1 ≤ f →
      reconstruct_path m f t = some [t]) := by
  constructor
  · obtain ⟨stf, hi, hd, hp, hq⟩ :=
      dijRun_ok hw fuel (dijInit start) (dijInv_init nbrs start) h
    subst hd hp
    intro v c hv
    obtain ⟨n, l, hgo, hhead, hchain⟩ :=
      reconstruct_of_prevAcc hi.prevStart (hi.chain v c hv)
    refine ⟨n, l ++ [v], hgo [v], hhead, List.getLast?_concat _, hchain⟩
  · intro m t f hl hf
    obtain ⟨k, rfl⟩ : ∃ k, f = k + 1 := ⟨f - 1, by omega⟩
    show reconstructGo m (k + 1) t [t] = some [t]
    simp [reconstructGo, hl]

/-- Witness for C9: reconstruction on a target absent from the empty
predecessor map yields the singleton. -/
theorem claim_C9_witness :
    reconstruct_path ([] : List (V4 × V4)) 1 V4.D = some [V4.D] :=
  (claim_C9 V4.A dijG
    (by show ∀ u, ∀ vw ∈ dijG u, 0 ≤ (vw : V4 × Int).2; decide) 20
    [(V4.A, 0), (V4.B, 1), (V4.C, 5), (V4.D, 3)]
    [(V4.B, V4.A), (V4.C, V4.A), (V4.D, V4.B)] (by decide)).2 [] V4.D 1 rfl
    (by omega)

/-- C8: dfs explores the last-listed neighbor branch first: on the graph where
A has neighbors [B, C], B has [D], C has [D] and D has none, dfs from A
returns exactly the order [A, C, D, B]. -/
theorem claim_C8 : dfs V4.A dfsG 20 = Res.ok [V4.A, V4.C, V4.D, V4.B] := by decide

/-- C7 is false on the code: it is not the case that after a popped node is
marked visited and appended to the output all of its neighbors are pushed
regardless of visited status. In the two-node cycle, expanding B does not push
its already-visited neighbor A. -/
theorem claim_C7_counterexample :
    ¬ (∀ (st st' : DfsState V4) (cur : V4) (rest : List V4),
        st.stack = cur :: rest → cur ∉ st.visited →
        dfsStep loopG st = StepRes.next st' →
        ∀ nb ∈ loopG cur, nb ∈ st'.stack) := by
  intro h
  have hmem := h ⟨[V4.A], [V4.B], [V4.A]⟩ ⟨[V4.B, V4.A], [], [V4.A, V4.B]⟩ V4.B []
    (by decide) (by decide) (by decide) V4.A (by decide)
  exact absurd hmem (by decide)

/-- C7 (amended): after a popped unvisited node is marked visited and appended
to the output, exactly its neighbors not yet visited (counting the node itself
as visited) are pushed onto the stack, the last-listed ending on top; a popped
node that is already visited is skipped, which suppresses duplicates pushed
before visitation. -/
theorem claim_C7_amended {T : Type} [DecidableEq T] (nbrs : T → List T)
    (st : DfsState T) (cur : T) (rest : List T) (h : st.stack = cur :: rest) :
    (cur ∉ st.visited → dfsStep nbrs st = StepRes.next
      ⟨cur :: st.visited,
       ((nbrs cur).filter (fun nb => decide (nb ∉ cur :: st.visited))).reverse ++ rest,
       st.order ++ [cur]⟩) ∧
    (cur ∈ st.visited → dfsStep nbrs st = StepRes.next ⟨st.visited, rest, st.order⟩) := by
  constructor
  · intro hv
    simp [dfsStep, h, hv, dfsPushes_eq]
  · intro hv
    simp [dfsStep, h, hv]

/-- Witness for the amended C7 at the concrete state reached in the two-node
cycle: expanding B pushes nothing because its only neighbor A is visited. -/
theorem claim_C7_witness :
    dfsStep loopG ⟨[V4.A], [V4.B], [V4.A]⟩ =
      StepRes.next ⟨[V4.B, V4.A], [], [V4.A, V4.B]⟩ := by
  have h := (claim_C7_amended loopG ⟨[V4.A], [V4.B], [V4.A]⟩ V4.B [] rfl).1 (by decide)
  simpa using h

/-- C3: when the candidate distance d + w equals the recorded distance of v,
relax changes nothing (distance and predecessor keep their earlier values);
and relax changes the state only when v has no recorded distance or the
candidate is strictly smaller. -/
theorem claim_C3 {T : Type} [DecidableEq T] :
    (∀ (st : DijState T) (u v : T) (d w old : Int),
      alookup st.dist v = some old → d + w = old → relax u d st (v, w) = st) ∧
    (∀ (st : DijState T) (u v : T) (d w : Int),
      relax u d st (v, w) ≠ st →
      alookup st.dist v = none ∨ ∃ old, alookup st.dist v = some old ∧ d + w < old) := by
  constructor
  · intro st u v d w old hl he
    subst he
    simp [relax, hl]
  · intro st u v d w hne
    cases hl : alookup st.dist v with
    | none => exact Or.inl rfl
    | some old =>
      by_cases hlt : d + w < old
      · exact Or.inr ⟨old, rfl, hlt⟩
      · exact absurd (by simp [relax, hl, hlt]) hne

/-- Witness for C3: a concrete tie (candidate 2 + 3 equals the recorded 5)
leaves the state untouched. -/
theorem claim_C3_witness :
    relax V4.A 2 ⟨[(V4.C, 5)], [], []⟩ (V4.C, 3) = ⟨[(V4.C, 5)], [], []⟩ :=
  claim_C3.1 ⟨[(V4.C, 5)], [], []⟩ V4.A V4.C 2 3 5 (by decide) (by decide)

/-- C2: on the stale-entry graph (A to B cost 5, A to C cost 10, B to C cost 1)
dijkstra converges to distance 6 for C with predecessor B; and a popped
frontier entry whose distance exceeds the recorded best for its node is
discarded without expanding its neighbors. -/
theorem claim_C2 :
    (∃ dist prev, dijkstra V4.A staleG 20 = Res.ok (dist, prev) ∧
      alookup dist V4.C = some 6 ∧ alookup prev V4.C = some V4.B) ∧
    (∀ {T : Type} [DecidableEq T] (nbrs : T → List (T × Int)) (st : DijState T)
      (u : T) (d du : Int) (rest : List (T × Int)),
      popMin st.pq = some ((u, d), rest) → alookup st.dist u = some du → du < d →
      dijStep nbrs st = StepRes.next ⟨st.dist, st.prev, rest⟩) := by
  constructor
  · exact ⟨[(V4.A, 0), (V4.B, 5), (V4.C, 6)], [(V4.B, V4.A), (V4.C, V4.B)],
      by decide, by decide, by decide⟩
  · intro T _ nbrs st u d du rest hpop hlook hlt
    simp [dijStep, hpop, hlook, hlt]

/-- Witness for C2: a concrete stale entry (A queued at 5 while its recorded
best is 0) is dropped without expansion. -/
theorem claim_C2_witness :
    dijStep staleG ⟨[(V4.A, 0)], [], [(V4.A, 5)]⟩ =
      StepRes.next ⟨[(V4.A, 0)], [], []⟩ :=
  claim_C2.2 staleG ⟨[(V4.A, 0)], [], [(V4.A, 5)]⟩ V4.A 5 0 [] (by decide) (by decide)
    (by decide)

end AocSearch
